import Mathlib

/-!
# Verification of the libsnark Merkle-tree membership ("memory load") gadget

Shallow embedding of
`src/gadgetlib1/gadgets/delegated_ra_memory/memory_load_gadget.tcc`.

The protoboard, `digest_variable`, `digest_selector_gadget`,
`merkle_authentication_path` and the `CRH_with_bit_out_gadget` (knapsack)
hasher are repository code that is not among the provided sources; they are
modelled from the specification at their documented interfaces.

Representation choices:
* a protoboard variable is its allocation index (a `Nat`); a protoboard
  valuation is a total function from indices to field values;
* constraints are represented syntactically: one bitness constraint per
  digest bit, one rank-1 selector constraint per bit, and the hasher's
  constraint fragment as one atomic entry carrying its documented cost and
  its documented semantics (the output digest equals the hash of the input
  block, whose entries must be bits);
* the hasher is an abstract compression function `hashFn` on bit vectors
  whose outputs have the digest length; its per-fragment constraint cost is
  an abstract parameter.
-/

namespace MemoryLoad

/-- A protoboard valuation: the concrete field value currently held by each
variable, where variables are identified by their allocation index. -/
def Val (F : Type) : Type :=
  Nat → F

/-- `pb.val(v) = x`: pointwise update of a valuation. -/
def setVar {F : Type} (v : Nat) (x : F) (val : Val F) : Val F :=
  fun w => if w = v then x else val w

/-- Injection of a witness bit into the field (bits are the field values
0 and 1). -/
def bool_to_F {F : Type} [Field F] (b : Bool) : F :=
  if b then 1 else 0

/-- Reading a field value back as a bit, as `pb_variable_array::get_bits`
does: the value 1 reads as `true`, anything else as `false`. -/
def F_to_bool {F : Type} [Field F] [DecidableEq F] (x : F) : Bool :=
  decide (x = 1)

/-- Modelled from the spec (§4.1 Digest, "assign these L raw bits as concrete
values"): `digest_variable::fill_with_bits` assigns the listed bits to the
listed variables, in order. -/
def fill_with_bits {F : Type} [Field F] : List Nat → List Bool → Val F → Val F
  | v :: vs, b :: bs, val => fill_with_bits vs bs (setVar v (bool_to_F b) val)
  | _, _, val => val

/-- Assigning a list of already-concrete field values to a list of variables,
in order (used by the selector's witness pass, which copies the claimed
digest's field values into the selected slot). -/
def fill_with_field {F : Type} : List Nat → List F → Val F → Val F
  | v :: vs, x :: xs, val => fill_with_field vs xs (setVar v x val)
  | _, _, val => val

/-- Reading a variable array back as a bit vector
(`pb_variable_array::get_bits`). -/
def get_bits {F : Type} [Field F] [DecidableEq F] (val : Val F)
    (vars : List Nat) : List Bool :=
  vars.map (fun v => F_to_bool (val v))

/-- The variable indices of a freshly allocated digest of `L` consecutive
variables starting at index `s` (`digest_variable` allocates its bits
contiguously; likewise `pb_variable_array::allocate`). -/
def digestVars : Nat → Nat → List Nat
  | 0, _ => []
  | n + 1, s => s :: digestVars n (s + 1)

/-- One level of a `merkle_authentication_path`: the direction flag
`computed_is_right` and the sibling digest `aux_digest`. -/
structure PathNode where
  computed_is_right : Bool
  aux_digest : List Bool
  deriving DecidableEq

/-- Default path node used for out-of-range indexing. -/
def dfltNode : PathNode :=
  { computed_is_right := false, aux_digest := [] }

/-- The wiring of one `CRH_with_bit_out_gadget` instance: the variables of
its input block and of its output digest. -/
structure HasherGadget where
  inp : List Nat
  out : List Nat
  deriving DecidableEq

/-- Default hasher wiring used for out-of-range indexing. -/
def dfltHasher : HasherGadget :=
  { inp := [], out := [] }

/-- The wiring of one `digest_selector_gadget` instance: claimed digest,
direction bit, and the two slot digests. -/
structure SelectorGadget where
  claimed : List Nat
  bit : Nat
  left : List Nat
  right : List Nat
  deriving DecidableEq

/-- Default selector wiring used for out-of-range indexing. -/
def dfltSel : SelectorGadget :=
  { claimed := [], bit := 0, left := [], right := [] }

/-- The interleaved allocation loop of the constructor
(`memory_load_gadget.tcc` lines 38-42): at each of `n` iterations allocate
one left-slot digest followed by one right-slot digest, each of `L`
consecutive variables. Returns the list of left-slot digests and the list
of right-slot digests. -/
def allocLR (L : Nat) : Nat → Nat → List (List Nat) × List (List Nat)
  | 0, _ => ([], [])
  | n + 1, s =>
    let rest := allocLR L n (s + 2 * L)
    (digestVars L s :: rest.1, digestVars L (s + L) :: rest.2)

/-- The internal-output allocation loop of the constructor
(`memory_load_gadget.tcc` lines 44-47): allocate `n` digests of `L`
consecutive variables each. -/
def allocSeq (L : Nat) : Nat → Nat → List (List Nat)
  | 0, _ => []
  | n + 1, s => digestVars L s :: allocSeq L n (s + L)

/-- The state of one `memory_load_gadget` instance: the digest length, the
tree depth, the caller-supplied variable groups, the internally allocated
digests, and the wiring of the hasher and selector sub-gadget instances. -/
structure MemoryLoadGadget where
  digest_size : Nat
  tree_depth : Nat
  address_bits : List Nat
  leaf : List Nat
  root : List Nat
  internal_left : List (List Nat)
  internal_right : List (List Nat)
  internal_output : List (List Nat)
  hashers : List HasherGadget
  propagators : List SelectorGadget
  deriving DecidableEq

/-- The body of the `memory_load_gadget` constructor
(`memory_load_gadget.tcc` lines 20-63), run after the two assertions:
allocate `tree_depth` interleaved left/right slot digests starting at the
protoboard's next free index, then `tree_depth - 1` internal-output digests;
wire hasher `i` to consume `internal_left[i] ++ internal_right[i]` and
produce the root when `i = 0` and `internal_output[i-1]` otherwise; wire
selector `i` with claimed digest `internal_output[i]` when
`i < tree_depth - 1` and the leaf otherwise, direction bit
`address_bits[tree_depth-1-i]`, and the level's two slots.
(The hasher's private auxiliary variables are opaque and absorbed into the
atomic hash constraint fragment; its one-time `sample_randomness` call has
no observable effect in this model.) -/
def memory_load_gadget_raw (L d : Nat)
    (address_bits leaf root : List Nat) (next : Nat) : MemoryLoadGadget :=
  let lr := allocLR L d next
  let outs := allocSeq L (d - 1) (next + 2 * L * d)
  { digest_size := L
    tree_depth := d
    address_bits := address_bits
    leaf := leaf
    root := root
    internal_left := lr.1
    internal_right := lr.2
    internal_output := outs
    hashers := (List.range d).map (fun i =>
      { inp := (lr.1.getD i []) ++ (lr.2.getD i [])
        out := if i = 0 then root else outs.getD (i - 1) [] })
    propagators := (List.range d).map (fun i =>
      { claimed := if i < d - 1 then outs.getD i [] else leaf
        bit := address_bits.getD (d - 1 - i) 0
        left := lr.1.getD i []
        right := lr.2.getD i [] }) }

/-- The checked `memory_load_gadget` constructor: the two assertions at
`memory_load_gadget.tcc` lines 33-34 (`tree_depth > 0` and
`tree_depth == address_bits.size()`) abort construction when violated,
modelled as returning `none`. -/
def memory_load_gadget (L d : Nat)
    (address_bits leaf root : List Nat) (next : Nat) : Option MemoryLoadGadget :=
  if 0 < d ∧ address_bits.length = d then
    some (memory_load_gadget_raw L d address_bits leaf root next)
  else
    none

/-- The syntactic constraint shapes the membership circuit emits:
* `boolean v` — the bitness constraint `v * (1 - v) = 0`
  (one per digest bit, from `digest_variable::generate_r1cs_constraints`);
* `select dk b l r` — the per-bit selector constraint
  `dk = l + b * (r - l)` (from `digest_selector_gadget`, spec §4.3);
* `hash inp out ensure_output_bitness` — the hasher's constraint fragment
  binding the output digest to the hash of the input block (spec §4.2),
  kept atomic because the hasher's internals are opaque. -/
inductive Constraint where
  | boolean (v : Nat)
  | select (dk b l r : Nat)
  | hash (inp out : List Nat) (ensure_output_bitness : Bool)
  deriving DecidableEq

/-- Modelled from the spec (§4.1): `digest_variable::generate_r1cs_constraints`
emits one bitness constraint per bit of the digest. -/
def digest_bitness (vars : List Nat) : List Constraint :=
  vars.map Constraint.boolean

/-- Modelled from the spec (§4.2): the hasher's
`generate_r1cs_constraints(ensure_output_bitness)` emits its constraint
fragment, with the optional output-range check recorded in the flag. -/
def CRH_constrain (h : HasherGadget) (ensure_output_bitness : Bool) :
    List Constraint :=
  [Constraint.hash h.inp h.out ensure_output_bitness]

/-- Modelled from the spec (§4.3): the selector emits, for every bit
position, one constraint `claimed[k] = left[k] + bit * (right[k] - left[k])`
— exactly one constraint per bit, none for the non-selected slot. -/
def selector_constraints_bits (b : Nat) :
    List Nat → List Nat → List Nat → List Constraint
  | dk :: ds, l :: ls, r :: rs =>
    Constraint.select dk b l r :: selector_constraints_bits b ds ls rs
  | _, _, _ => []

/-- The selector's constraint pass over its wiring. -/
def selector_constraints (s : SelectorGadget) : List Constraint :=
  selector_constraints_bits s.bit s.claimed s.left s.right

/-- Loop 1 of `generate_r1cs_constraints` (`memory_load_gadget.tcc`
lines 68-73): for every level, bitness of the left-slot digest then of the
right-slot digest. -/
def bitness_loop : List (List Nat) → List (List Nat) → List Constraint
  | l :: ls, r :: rs => digest_bitness l ++ digest_bitness r ++ bitness_loop ls rs
  | _, _ => []

/-- Loop 2 of `generate_r1cs_constraints` (`memory_load_gadget.tcc`
lines 75-79): every hasher's fragment, with the output-bitness flag `false`. -/
def hasher_loop : List HasherGadget → List Constraint
  | [] => []
  | h :: hs => CRH_constrain h false ++ hasher_loop hs

/-- Loop 3 of `generate_r1cs_constraints` (`memory_load_gadget.tcc`
lines 81-85): every selector's constraints. -/
def selector_loop : List SelectorGadget → List Constraint
  | [] => []
  | s :: ss => selector_constraints s ++ selector_loop ss

/-- `memory_load_gadget::generate_r1cs_constraints`
(`memory_load_gadget.tcc` lines 65-86): slot bitness, then hash fragments
(output-bitness flag `false`), then selector constraints. -/
def generate_r1cs_constraints (g : MemoryLoadGadget) : List Constraint :=
  bitness_loop g.internal_left g.internal_right
    ++ hasher_loop g.hashers
    ++ selector_loop g.propagators

/-- The number of rank-1 constraints an emitted constraint stands for.
`hBase` is the (opaque) size of the hasher's fragment when emitted without
the output-range check; with the check the fragment additionally carries one
bitness constraint per output bit (spec §4.2). -/
def constraint_cost (hBase L : Nat) : Constraint → Nat
  | Constraint.boolean _ => 1
  | Constraint.select _ _ _ _ => 1
  | Constraint.hash _ _ flag => hBase + (if flag then L else 0)

/-- `protoboard::num_constraints` over an emitted constraint list. -/
def num_constraints (hBase L : Nat) : List Constraint → Nat
  | [] => 0
  | c :: cs => constraint_cost hBase L c + num_constraints hBase L cs

/-- Modelled from the spec: `CRH_with_bit_out_gadget::expected_constraints()`
(no flag parameter, `memory_load_gadget.tcc` line 120) — the documented
deterministic constraint count of one hasher instance.  It counts the base
compression fragment plus the `L` output-bitness constraints that the
emission step makes optional; the repository's own self-test
(`test_memory_load_gadget`, lines 176-178) asserts that the gadget's emitted
total equals the closed-form prediction, which pins exactly this relation
between the flag-free count and the `false`-flag emission. -/
def CRH_expected_constraints (hBase L : Nat) : Nat :=
  hBase + L

/-- `memory_load_gadget::expected_constraints` (`memory_load_gadget.tcc`
lines 117-124). -/
def expected_constraints (hBase L d : Nat) : Nat :=
  let hasher_constraints := d * CRH_expected_constraints hBase L
  let propagator_constraints := d * L
  let aux_digest_constraints := d * L
  hasher_constraints + propagator_constraints + aux_digest_constraints

/-- Modelled from the spec (§4.3, witness contract): the selector's witness
pass reads the direction bit and copies the claimed digest's (already
concrete) values into the slot the bit selects — the right slot when the bit
holds 1, the left slot otherwise. -/
def selector_witness {F : Type} [Field F] [DecidableEq F]
    (s : SelectorGadget) (val : Val F) : Val F :=
  if val s.bit = 1 then fill_with_field s.right (s.claimed.map val) val
  else fill_with_field s.left (s.claimed.map val) val

/-- Modelled from the spec (§4.2 `computeWitness`, §4.4 step 2c): the
hasher's witness pass is handed the input block's bits read off the
protoboard (`memory_load_gadget.tcc` line 113) and assigns the computed
output bits into its output digest. -/
def hasher_witness {F : Type} [Field F] [DecidableEq F]
    (hashFn : List Bool → List Bool) (h : HasherGadget) (val : Val F) : Val F :=
  fill_with_bits h.out (hashFn (get_bits val h.inp)) val

/-- The body of one iteration of the witness loop
(`memory_load_gadget.tcc` lines 95-114) at level `i`: read `path[i]`; if the
computed digest is on the right, set `address_bits[tree_depth-1-i]` to 1 and
fill the left slot with the sibling digest, otherwise set the bit to 0 and
fill the right slot; then run the level's selector witness pass and the
level's hasher witness pass. -/
def memory_load_witness_level {F : Type} [Field F] [DecidableEq F]
    (g : MemoryLoadGadget) (hashFn : List Bool → List Bool)
    (path : List PathNode) (i : Nat) (val : Val F) : Val F :=
  let node := path.getD i dfltNode
  let val1 :=
    if node.computed_is_right then
      fill_with_bits (g.internal_left.getD i []) node.aux_digest
        (setVar (g.address_bits.getD (g.tree_depth - 1 - i) 0) 1 val)
    else
      fill_with_bits (g.internal_right.getD i []) node.aux_digest
        (setVar (g.address_bits.getD (g.tree_depth - 1 - i) 0) 0 val)
  let val2 := selector_witness (g.propagators.getD i dfltSel) val1
  hasher_witness hashFn (g.hashers.getD i dfltHasher) val2

/-- The level loop of `generate_r1cs_witness` (`memory_load_gadget.tcc`
lines 94-114): `witness_loop g hashFn path n` processes levels
`n-1, n-2, ..., 0` in that order. -/
def witness_loop {F : Type} [Field F] [DecidableEq F]
    (g : MemoryLoadGadget) (hashFn : List Bool → List Bool)
    (path : List PathNode) : Nat → Val F → Val F
  | 0, val => val
  | i + 1, val =>
    witness_loop g hashFn path i (memory_load_witness_level g hashFn path i val)

/-- `memory_load_gadget::generate_r1cs_witness` (`memory_load_gadget.tcc`
lines 88-115): fill the leaf digest's bits, then run the level loop from
`tree_depth - 1` down to 0.  The `root_digest` argument is accepted (as in
the source signature) but never read by the body. -/
def generate_r1cs_witness {F : Type} [Field F] [DecidableEq F]
    (g : MemoryLoadGadget) (hashFn : List Bool → List Bool)
    (leaf_digest root_digest : List Bool) (path : List PathNode)
    (val : Val F) : Val F :=
  witness_loop g hashFn path g.tree_depth (fill_with_bits g.leaf leaf_digest val)

/-- Whether one emitted constraint is satisfied by a valuation:
* a bitness constraint holds when the variable's value is 0 or 1;
* a selector constraint holds when `dk = l + b * (r - l)`;
* the hasher fragment holds when the input block's values are all bits and
  the output digest's values are exactly the (0/1-encoded) hash of those
  bits (spec §4.2: the fragment enforces `outputDigest = Hash(inputBlock)`);
  the optional flag additionally demands that the output values are bits. -/
def constraint_sat {F : Type} [Field F] [DecidableEq F]
    (hashFn : List Bool → List Bool) (val : Val F) : Constraint → Bool
  | Constraint.boolean v => decide (val v = 0) || decide (val v = 1)
  | Constraint.select dk b l r =>
    decide (val dk = val l + val b * (val r - val l))
  | Constraint.hash inp out flag =>
    (inp.all fun v => decide (val v = 0) || decide (val v = 1))
      && decide (out.map val = (hashFn (get_bits val inp)).map bool_to_F)
      && (!flag || out.all fun v => decide (val v = 0) || decide (val v = 1))

/-- `protoboard::is_satisfied` over an emitted constraint list. -/
def is_satisfied {F : Type} [Field F] [DecidableEq F]
    (hashFn : List Bool → List Bool) (val : Val F)
    (cs : List Constraint) : Bool :=
  cs.all (constraint_sat hashFn val)

/-- The hash-input block formed at one level, as the self-test forms it
(`memory_load_gadget.tcc` lines 149-150): the sibling digest is prepended
when the computed digest is on the right, appended otherwise. -/
def chainBlock (node : PathNode) (prev : List Bool) : List Bool :=
  if node.computed_is_right then node.aux_digest ++ prev else prev ++ node.aux_digest

/-- The root derived by hashing a leaf up through a path, as the self-test
derives it (`memory_load_gadget.tcc` lines 136-158): the path is ordered
root level first, leaf level last, and the chain consumes it from the leaf
end. -/
def merkle_root_from (hashFn : List Bool → List Bool)
    (leaf : List Bool) : List PathNode → List Bool
  | [] => leaf
  | node :: rest => hashFn (chainBlock node (merkle_root_from hashFn leaf rest))

/-- The address-bit vector the self-test accumulates
(`memory_load_gadget.tcc` lines 140-145): the direction flags of the path,
leaf level first. -/
def test_address_bits (path : List PathNode) : List Bool :=
  (path.map PathNode.computed_is_right).reverse

/-- The protoboard layout of the self-test (`memory_load_gadget.tcc`
lines 161-166): `tree_depth` address-bit variables first, then the leaf
digest, then the root digest, then the gadget's internal allocations. -/
def gTest (L d : Nat) : MemoryLoadGadget :=
  memory_load_gadget_raw L d (digestVars d 0) (digestVars L d)
    (digestVars L (d + L)) (d + 2 * L)

/-- The number of bitness constraints in an emitted constraint list. -/
def boolean_constraint_count : List Constraint → Nat
  | [] => 0
  | Constraint.boolean _ :: cs => 1 + boolean_constraint_count cs
  | _ :: cs => boolean_constraint_count cs

/-- Proof infrastructure: in the self-test layout every digest occupies `L`
consecutive variables starting at `d + L * t` for a block index `t` that is
unique to the digest (`t = 0` leaf, `t = 1` root, `t = 2 + 2i` left slot of
level `i`, `t = 3 + 2i` right slot of level `i`, `t = 2 + 2d + i` internal
output `i`). -/
def blockStart (L d t : Nat) : Nat :=
  d + L * t

/-- Proof infrastructure: the block index of the hasher output target at
level `i` in the self-test layout (the root at level 0, internal output
`i - 1` otherwise). -/
def outTargetT (d i : Nat) : Nat :=
  if i = 0 then 1 else 2 + 2 * d + (i - 1)

/-- Proof infrastructure: the digest the hash chain has reached just below
level `j` (levels `tree_depth - 1` down to `j` already hashed); `upTo 0` is
the derived root and `upTo tree_depth` is the leaf. -/
def upTo (hashFn : List Bool → List Bool) (leaf_bits : List Bool)
    (path : List PathNode) (j : Nat) : List Bool :=
  merkle_root_from hashFn leaf_bits (path.drop j)

/-- Proof infrastructure: the invariant of the witness loop over the
self-test layout after the levels `tree_depth - 1` down to `j` have been
processed — the leaf digest holds the leaf bits; each processed level's
address bit holds its direction flag; each processed level's slots hold the
sibling digest on the free side and the chained digest on the selected side;
and each processed level's hasher output target holds the chained digest of
that level. -/
def loopInv (F : Type) [Field F] (L d : Nat)
    (hashFn : List Bool → List Bool) (leaf_bits : List Bool)
    (path : List PathNode) (j : Nat) (val : Val F) : Prop :=
  (∀ k, k < L → val (blockStart L d 0 + k) = bool_to_F (leaf_bits.getD k false)) ∧
  (∀ i, j ≤ i → i < d →
    val (d - 1 - i) = bool_to_F (path.getD i dfltNode).computed_is_right) ∧
  (∀ i k, j ≤ i → i < d → k < L →
    val (blockStart L d (2 + 2 * i) + k) =
      bool_to_F ((if (path.getD i dfltNode).computed_is_right then
        (path.getD i dfltNode).aux_digest else
        upTo hashFn leaf_bits path (i + 1)).getD k false) ∧
    val (blockStart L d (3 + 2 * i) + k) =
      bool_to_F ((if (path.getD i dfltNode).computed_is_right then
        upTo hashFn leaf_bits path (i + 1) else
        (path.getD i dfltNode).aux_digest).getD k false)) ∧
  (∀ i k, j ≤ i → i < d → k < L →
    val (blockStart L d (outTargetT d i) + k) =
      bool_to_F ((upTo hashFn leaf_bits path i).getD k false))

/-- The concrete prime field used to evaluate the development on explicit
inputs. -/
instance : Fact (Nat.Prime 13) := ⟨by norm_num⟩

/-! ## Infrastructure lemmas -/

theorem setVar_same {F : Type} (v : Nat) (x : F) (val : Val F) :
    setVar v x val v = x := by
  simp [setVar]

theorem setVar_ne {F : Type} {v w : Nat} (x : F) (val : Val F) (h : w ≠ v) :
    setVar v x val w = val w := by
  simp [setVar, h]

theorem mem_digestVars {L s w : Nat} :
    w ∈ digestVars L s ↔ s ≤ w ∧ w < s + L := by
  induction L generalizing s with
  | zero => simp [digestVars]
  | succ n ih =>
    simp only [digestVars, List.mem_cons, ih]
    omega

theorem length_digestVars (L s : Nat) : (digestVars L s).length = L := by
  induction L generalizing s with
  | zero => rfl
  | succ n ih => simp [digestVars, ih]

theorem digestVars_getD {L k : Nat} (s : Nat) (hk : k < L) :
    (digestVars L s).getD k 0 = s + k := by
  induction L generalizing s k with
  | zero => omega
  | succ n ih =>
    cases k with
    | zero => simp [digestVars]
    | succ j =>
      have : (digestVars (n + 1) s).getD (j + 1) 0 = (digestVars n (s + 1)).getD j 0 := rfl
      rw [this, ih (s + 1) (by omega)]
      omega

theorem fill_with_bits_not_mem {F : Type} [Field F]
    {vars : List Nat} {w : Nat} (bits : List Bool) (val : Val F)
    (h : w ∉ vars) : fill_with_bits vars bits val w = val w := by
  induction vars generalizing bits val with
  | nil => cases bits <;> rfl
  | cons v vs ih =>
    cases bits with
    | nil => rfl
    | cons b bs =>
      have hw : w ≠ v := by intro he; exact h (he ▸ List.mem_cons_self v vs)
      have hws : w ∉ vs := fun hm => h (List.mem_cons_of_mem v hm)
      simp only [fill_with_bits]
      rw [ih bs _ hws, setVar_ne _ _ hw]

theorem fill_with_field_not_mem {F : Type}
    {vars : List Nat} {w : Nat} (xs : List F) (val : Val F)
    (h : w ∉ vars) : fill_with_field vars xs val w = val w := by
  induction vars generalizing xs val with
  | nil => cases xs <;> rfl
  | cons v vs ih =>
    cases xs with
    | nil => rfl
    | cons x rest =>
      have hw : w ≠ v := by intro he; exact h (he ▸ List.mem_cons_self v vs)
      have hws : w ∉ vs := fun hm => h (List.mem_cons_of_mem v hm)
      simp only [fill_with_field]
      rw [ih rest _ hws, setVar_ne _ _ hw]

theorem fill_with_bits_digest_get {F : Type} [Field F]
    {L k : Nat} (s : Nat) {bits : List Bool} (val : Val F)
    (hk : k < L) (hlen : bits.length = L) :
    fill_with_bits (digestVars L s) bits val (s + k) =
      bool_to_F (bits.getD k false) := by
  induction L generalizing s bits val k with
  | zero => omega
  | succ n ih =>
    cases bits with
    | nil => simp at hlen
    | cons b bs =>
      cases k with
      | zero =>
        simp only [digestVars, fill_with_bits, Nat.add_zero]
        rw [fill_with_bits_not_mem _ _ (by rw [mem_digestVars]; omega)]
        simp [setVar_same, List.getD]
      | succ j =>
        have harith : s + (j + 1) = (s + 1) + j := by omega
        simp only [digestVars, fill_with_bits, harith]
        rw [ih (s + 1) _ (by omega) (by simpa using hlen)]
        rfl

theorem fill_with_field_digest_get {F : Type} [Field F]
    {L k : Nat} (s : Nat) {xs : List F} (val : Val F)
    (hk : k < L) (hlen : xs.length = L) :
    fill_with_field (digestVars L s) xs val (s + k) = xs.getD k 0 := by
  induction L generalizing s xs val k with
  | zero => omega
  | succ n ih =>
    cases xs with
    | nil => simp at hlen
    | cons x rest =>
      cases k with
      | zero =>
        simp only [digestVars, fill_with_field, Nat.add_zero]
        rw [fill_with_field_not_mem _ _ (by rw [mem_digestVars]; omega)]
        simp [setVar_same, List.getD]
      | succ j =>
        have harith : s + (j + 1) = (s + 1) + j := by omega
        simp only [digestVars, fill_with_field, harith]
        rw [ih (s + 1) _ (by omega) (by simpa using hlen)]
        rfl

theorem F_to_bool_bool_to_F {F : Type} [Field F] [DecidableEq F] (b : Bool) :
    F_to_bool (bool_to_F b : F) = b := by
  cases b <;> simp [F_to_bool, bool_to_F]

theorem get_bits_digest {F : Type} [Field F] [DecidableEq F]
    {L : Nat} (s : Nat) (bits : List Bool) (val : Val F)
    (hv : ∀ k, k < L → val (s + k) = bool_to_F (bits.getD k false))
    (hlen : bits.length = L) :
    get_bits val (digestVars L s) = bits := by
  induction L generalizing s bits with
  | zero =>
    cases bits with
    | nil => rfl
    | cons b bs => simp at hlen
  | succ n ih =>
    cases bits with
    | nil => simp at hlen
    | cons b bs =>
      simp only [digestVars, get_bits, List.map_cons, List.cons.injEq]
      constructor
      · have h0 := hv 0 (by omega)
        simp only [Nat.add_zero] at h0
        rw [h0]
        exact F_to_bool_bool_to_F b
      · have := ih (s + 1) bs
          (fun k hk => by
            have := hv (k + 1) (by omega)
            simpa [Nat.add_comm, Nat.add_assoc, Nat.add_left_comm] using this)
          (by simpa using hlen)
        simpa [get_bits] using this

theorem digestVars_map_val {F : Type} [Field F]
    {L : Nat} (s : Nat) (bits : List Bool) (val : Val F)
    (hv : ∀ k, k < L → val (s + k) = bool_to_F (bits.getD k false))
    (hlen : bits.length = L) :
    (digestVars L s).map val = bits.map bool_to_F := by
  induction L generalizing s bits with
  | zero =>
    cases bits with
    | nil => rfl
    | cons b bs => simp at hlen
  | succ n ih =>
    cases bits with
    | nil => simp at hlen
    | cons b bs =>
      simp only [digestVars, List.map_cons, List.cons.injEq]
      constructor
      · have h0 := hv 0 (by omega)
        simpa using h0
      · exact ih (s + 1) bs
          (fun k hk => by
            have := hv (k + 1) (by omega)
            simpa [Nat.add_comm, Nat.add_assoc, Nat.add_left_comm] using this)
          (by simpa using hlen)

theorem getD_map_range {α : Type} (f : Nat → α) (dflt : α) {n i : Nat}
    (h : i < n) : ((List.range n).map f).getD i dflt = f i := by
  have hlen : i < ((List.range n).map f).length := by simpa using h
  rw [List.getD_eq_getElem _ _ hlen, List.getElem_map, List.getElem_range]

theorem allocLR_fst_length (L : Nat) : ∀ n s, ((allocLR L n s).1).length = n := by
  intro n
  induction n with
  | zero => intro s; rfl
  | succ m ih => intro s; simp [allocLR, ih]

theorem allocLR_snd_length (L : Nat) : ∀ n s, ((allocLR L n s).2).length = n := by
  intro n
  induction n with
  | zero => intro s; rfl
  | succ m ih => intro s; simp [allocLR, ih]

theorem allocSeq_length (L : Nat) : ∀ n s, (allocSeq L n s).length = n := by
  intro n
  induction n with
  | zero => intro s; rfl
  | succ m ih => intro s; simp [allocSeq, ih]

theorem allocLR_fst_getD (L : Nat) : ∀ n s i, i < n →
    ((allocLR L n s).1).getD i [] = digestVars L (s + 2 * L * i) := by
  intro n
  induction n with
  | zero => intro s i h; omega
  | succ m ih =>
    intro s i h
    cases i with
    | zero => simp [allocLR, List.getD]
    | succ j =>
      have : ((allocLR L (m + 1) s).1).getD (j + 1) [] =
          ((allocLR L m (s + 2 * L)).1).getD j [] := rfl
      rw [this, ih (s + 2 * L) j (by omega)]
      congr 1
      ring

theorem allocLR_snd_getD (L : Nat) : ∀ n s i, i < n →
    ((allocLR L n s).2).getD i [] = digestVars L (s + 2 * L * i + L) := by
  intro n
  induction n with
  | zero => intro s i h; omega
  | succ m ih =>
    intro s i h
    cases i with
    | zero => simp [allocLR, List.getD]
    | succ j =>
      have : ((allocLR L (m + 1) s).2).getD (j + 1) [] =
          ((allocLR L m (s + 2 * L)).2).getD j [] := rfl
      rw [this, ih (s + 2 * L) j (by omega)]
      congr 1
      ring

theorem allocSeq_getD (L : Nat) : ∀ n s i, i < n →
    (allocSeq L n s).getD i [] = digestVars L (s + L * i) := by
  intro n
  induction n with
  | zero => intro s i h; omega
  | succ m ih =>
    intro s i h
    cases i with
    | zero => simp [allocSeq, List.getD]
    | succ j =>
      have : (allocSeq L (m + 1) s).getD (j + 1) [] =
          (allocSeq L m (s + L)).getD j [] := rfl
      rw [this, ih (s + L) j (by omega)]
      congr 1
      ring

theorem not_mem_digestVars_of_lt {L s w : Nat} (h : w < s) :
    w ∉ digestVars L s := by
  rw [mem_digestVars]
  omega

theorem not_mem_digestVars_of_ge {L s w : Nat} (h : s + L ≤ w) :
    w ∉ digestVars L s := by
  rw [mem_digestVars]
  omega

theorem blockStart_not_mem {L d t t' k : Nat} (ht : t ≠ t') (hk : k < L) :
    blockStart L d t + k ∉ digestVars L (blockStart L d t') := by
  rcases Nat.lt_or_ge t t' with h | h
  · apply not_mem_digestVars_of_lt
    have hm : L * (t + 1) ≤ L * t' := Nat.mul_le_mul (Nat.le_refl L) (by omega)
    simp only [blockStart]
    have : L * (t + 1) = L * t + L := by ring
    omega
  · apply not_mem_digestVars_of_ge
    have ht' : t' + 1 ≤ t := by omega
    have hm : L * (t' + 1) ≤ L * t := Nat.mul_le_mul (Nat.le_refl L) ht'
    simp only [blockStart]
    have : L * (t' + 1) = L * t' + L := by ring
    omega

theorem addr_not_mem_block {L d t w : Nat} (h : w < d) :
    w ∉ digestVars L (blockStart L d t) := by
  apply not_mem_digestVars_of_lt
  simp only [blockStart]
  omega

theorem block_ne_addr {L d t k w : Nat} (h : w < d) :
    blockStart L d t + k ≠ w := by
  simp only [blockStart]
  omega

/-! ## Accessors for the constructed gadget -/

theorem raw_internal_left (L d : Nat) (addr leaf root : List Nat) (next : Nat) :
    (memory_load_gadget_raw L d addr leaf root next).internal_left =
      (allocLR L d next).1 := rfl

theorem raw_internal_right (L d : Nat) (addr leaf root : List Nat) (next : Nat) :
    (memory_load_gadget_raw L d addr leaf root next).internal_right =
      (allocLR L d next).2 := rfl

theorem raw_internal_output (L d : Nat) (addr leaf root : List Nat) (next : Nat) :
    (memory_load_gadget_raw L d addr leaf root next).internal_output =
      allocSeq L (d - 1) (next + 2 * L * d) := rfl

theorem raw_hashers_getD (L d : Nat) (addr leaf root : List Nat) (next : Nat)
    {i : Nat} (hi : i < d) :
    ((memory_load_gadget_raw L d addr leaf root next).hashers).getD i dfltHasher =
      { inp := (allocLR L d next).1.getD i [] ++ (allocLR L d next).2.getD i []
        out := if i = 0 then root
          else (allocSeq L (d - 1) (next + 2 * L * d)).getD (i - 1) [] } := by
  simp only [memory_load_gadget_raw]
  rw [getD_map_range _ _ hi]

theorem raw_propagators_getD (L d : Nat) (addr leaf root : List Nat) (next : Nat)
    {i : Nat} (hi : i < d) :
    ((memory_load_gadget_raw L d addr leaf root next).propagators).getD i dfltSel =
      { claimed := if i < d - 1
          then (allocSeq L (d - 1) (next + 2 * L * d)).getD i [] else leaf
        bit := addr.getD (d - 1 - i) 0
        left := (allocLR L d next).1.getD i []
        right := (allocLR L d next).2.getD i [] } := by
  simp only [memory_load_gadget_raw]
  rw [getD_map_range _ _ hi]

theorem gTest_tree_depth (L d : Nat) : (gTest L d).tree_depth = d := rfl

theorem gTest_address_bits (L d : Nat) :
    (gTest L d).address_bits = digestVars d 0 := rfl

theorem gTest_addr_getD (L d : Nat) {j : Nat} (h : j < d) :
    (gTest L d).address_bits.getD j 0 = j := by
  rw [gTest_address_bits, digestVars_getD 0 h]
  omega

theorem gTest_leaf (L d : Nat) :
    (gTest L d).leaf = digestVars L (blockStart L d 0) := by
  show digestVars L d = _
  simp [blockStart]

theorem gTest_root (L d : Nat) :
    (gTest L d).root = digestVars L (blockStart L d 1) := by
  show digestVars L (d + L) = _
  simp [blockStart]

theorem gTest_left_getD (L d : Nat) {i : Nat} (hi : i < d) :
    (gTest L d).internal_left.getD i [] =
      digestVars L (blockStart L d (2 + 2 * i)) := by
  show ((allocLR L d (d + 2 * L)).1).getD i [] = _
  rw [allocLR_fst_getD L d _ i hi]
  congr 1
  simp only [blockStart]
  ring

theorem gTest_right_getD (L d : Nat) {i : Nat} (hi : i < d) :
    (gTest L d).internal_right.getD i [] =
      digestVars L (blockStart L d (3 + 2 * i)) := by
  show ((allocLR L d (d + 2 * L)).2).getD i [] = _
  rw [allocLR_snd_getD L d _ i hi]
  congr 1
  simp only [blockStart]
  ring

theorem gTest_out_getD (L d : Nat) {i : Nat} (hi : i < d - 1) :
    (gTest L d).internal_output.getD i [] =
      digestVars L (blockStart L d (2 + 2 * d + i)) := by
  show (allocSeq L (d - 1) (d + 2 * L + 2 * L * d)).getD i [] = _
  rw [allocSeq_getD L (d - 1) _ i hi]
  congr 1
  simp only [blockStart]
  ring

theorem gTest_hashers_getD (L d : Nat) {i : Nat} (hi : i < d) :
    ((gTest L d).hashers).getD i dfltHasher =
      { inp := digestVars L (blockStart L d (2 + 2 * i))
            ++ digestVars L (blockStart L d (3 + 2 * i))
        out := digestVars L (blockStart L d (outTargetT d i)) } := by
  rw [show (gTest L d).hashers =
      (memory_load_gadget_raw L d (digestVars d 0) (digestVars L d)
        (digestVars L (d + L)) (d + 2 * L)).hashers from rfl,
    raw_hashers_getD _ _ _ _ _ _ hi]
  rw [← raw_internal_left L d (digestVars d 0) (digestVars L d)
      (digestVars L (d + L)) (d + 2 * L),
    ← raw_internal_right L d (digestVars d 0) (digestVars L d)
      (digestVars L (d + L)) (d + 2 * L),
    ← raw_internal_output L d (digestVars d 0) (digestVars L d)
      (digestVars L (d + L)) (d + 2 * L)]
  show HasherGadget.mk
      ((gTest L d).internal_left.getD i [] ++ (gTest L d).internal_right.getD i [])
      (if i = 0 then digestVars L (d + L)
        else (gTest L d).internal_output.getD (i - 1) []) = _
  rw [gTest_left_getD L d hi, gTest_right_getD L d hi]
  by_cases h0 : i = 0
  · subst h0
    simp [outTargetT, blockStart]
  · rw [if_neg h0, gTest_out_getD L d (by omega), outTargetT, if_neg h0]

theorem gTest_propagators_getD (L d : Nat) {i : Nat} (hi : i < d) :
    ((gTest L d).propagators).getD i dfltSel =
      { claimed := if i < d - 1
          then digestVars L (blockStart L d (2 + 2 * d + i))
          else digestVars L (blockStart L d 0)
        bit := d - 1 - i
        left := digestVars L (blockStart L d (2 + 2 * i))
        right := digestVars L (blockStart L d (3 + 2 * i)) } := by
  rw [show (gTest L d).propagators =
      (memory_load_gadget_raw L d (digestVars d 0) (digestVars L d)
        (digestVars L (d + L)) (d + 2 * L)).propagators from rfl,
    raw_propagators_getD _ _ _ _ _ _ hi]
  rw [← raw_internal_left L d (digestVars d 0) (digestVars L d)
      (digestVars L (d + L)) (d + 2 * L),
    ← raw_internal_right L d (digestVars d 0) (digestVars L d)
      (digestVars L (d + L)) (d + 2 * L),
    ← raw_internal_output L d (digestVars d 0) (digestVars L d)
      (digestVars L (d + L)) (d + 2 * L)]
  show SelectorGadget.mk
      (if i < d - 1 then (gTest L d).internal_output.getD i [] else digestVars L d)
      ((digestVars d 0).getD (d - 1 - i) 0)
      ((gTest L d).internal_left.getD i [])
      ((gTest L d).internal_right.getD i []) = _
  rw [gTest_left_getD L d hi, gTest_right_getD L d hi,
    digestVars_getD 0 (show d - 1 - i < d by omega)]
  by_cases h : i < d - 1
  · rw [if_pos h, if_pos h, gTest_out_getD L d h]
    simp
  · rw [if_neg h, if_neg h]
    simp [blockStart]

/-! ## Counting and membership lemmas for the emitted constraint list -/

theorem num_constraints_append (hBase L : Nat) (a b : List Constraint) :
    num_constraints hBase L (a ++ b) =
      num_constraints hBase L a + num_constraints hBase L b := by
  induction a with
  | nil => simp [num_constraints]
  | cons c cs ih => simp [num_constraints, ih]; ring

theorem num_digest_bitness (hBase L : Nat) (vars : List Nat) :
    num_constraints hBase L (digest_bitness vars) = vars.length := by
  induction vars with
  | nil => rfl
  | cons v vs ih =>
    simp only [digest_bitness, List.map_cons, num_constraints, constraint_cost,
      List.length_cons] at *
    omega

theorem num_bitness_loop (hBase L : Nat) :
    ∀ ls rs : List (List Nat), ls.length = rs.length →
      (∀ l ∈ ls, l.length = L) → (∀ r ∈ rs, r.length = L) →
      num_constraints hBase L (bitness_loop ls rs) = 2 * L * ls.length := by
  intro ls
  induction ls with
  | nil => intro rs _ _ _; cases rs <;> simp [bitness_loop, num_constraints]
  | cons l ls ih =>
    intro rs hlen hl hr
    cases rs with
    | nil => simp at hlen
    | cons r rs =>
      simp only [bitness_loop, num_constraints_append]
      rw [num_digest_bitness, num_digest_bitness,
        ih rs (by simpa using hlen) (fun x hx => hl x (List.mem_cons_of_mem _ hx))
          (fun x hx => hr x (List.mem_cons_of_mem _ hx)),
        hl l (List.mem_cons_self _ _), hr r (List.mem_cons_self _ _)]
      simp only [List.length_cons]
      ring

theorem num_hasher_loop (hBase L : Nat) (hs : List HasherGadget) :
    num_constraints hBase L (hasher_loop hs) = hs.length * hBase := by
  induction hs with
  | nil => simp [hasher_loop, num_constraints]
  | cons h hs ih =>
    show num_constraints hBase L (Constraint.hash h.inp h.out false :: hasher_loop hs) = _
    simp only [num_constraints, constraint_cost, ih, List.length_cons,
      if_neg Bool.false_ne_true]
    ring

theorem num_selector_bits (hBase L : Nat) (b : Nat) :
    ∀ ds ls rs : List Nat, ds.length = ls.length → ds.length = rs.length →
      num_constraints hBase L (selector_constraints_bits b ds ls rs) = ds.length := by
  intro ds
  induction ds with
  | nil => intro ls rs _ _; simp [selector_constraints_bits, num_constraints]
  | cons x ds ih =>
    intro ls rs h1 h2
    cases ls with
    | nil => simp at h1
    | cons y ls =>
      cases rs with
      | nil => simp at h2
      | cons z rs =>
        simp only [selector_constraints_bits, num_constraints, constraint_cost,
          List.length_cons]
        rw [ih ls rs (by simpa using h1) (by simpa using h2)]
        omega

theorem num_selector_loop (hBase L : Nat) (ss : List SelectorGadget)
    (h : ∀ s ∈ ss, num_constraints hBase L (selector_constraints s) = L) :
    num_constraints hBase L (selector_loop ss) = ss.length * L := by
  induction ss with
  | nil => simp [selector_loop, num_constraints]
  | cons s ss ih =>
    simp only [selector_loop, num_constraints_append, List.length_cons,
      h s (List.mem_cons_self _ _),
      ih (fun x hx => h x (List.mem_cons_of_mem _ hx))]
    ring

theorem bcc_append (a b : List Constraint) :
    boolean_constraint_count (a ++ b) =
      boolean_constraint_count a + boolean_constraint_count b := by
  induction a with
  | nil => simp [boolean_constraint_count]
  | cons c cs ih =>
    cases c <;> simp [boolean_constraint_count, ih] <;> ring

theorem bcc_digest_bitness (vars : List Nat) :
    boolean_constraint_count (digest_bitness vars) = vars.length := by
  induction vars with
  | nil => rfl
  | cons v vs ih =>
    simp only [digest_bitness, List.map_cons, boolean_constraint_count,
      List.length_cons] at *
    omega

theorem bcc_bitness_loop (L : Nat) :
    ∀ ls rs : List (List Nat), ls.length = rs.length →
      (∀ l ∈ ls, l.length = L) → (∀ r ∈ rs, r.length = L) →
      boolean_constraint_count (bitness_loop ls rs) = 2 * L * ls.length := by
  intro ls
  induction ls with
  | nil => intro rs _ _ _; cases rs <;> simp [bitness_loop, boolean_constraint_count]
  | cons l ls ih =>
    intro rs hlen hl hr
    cases rs with
    | nil => simp at hlen
    | cons r rs =>
      simp only [bitness_loop, bcc_append]
      rw [bcc_digest_bitness, bcc_digest_bitness,
        ih rs (by simpa using hlen) (fun x hx => hl x (List.mem_cons_of_mem _ hx))
          (fun x hx => hr x (List.mem_cons_of_mem _ hx)),
        hl l (List.mem_cons_self _ _), hr r (List.mem_cons_self _ _)]
      simp only [List.length_cons]
      ring

theorem bcc_hasher_loop (hs : List HasherGadget) :
    boolean_constraint_count (hasher_loop hs) = 0 := by
  induction hs with
  | nil => rfl
  | cons h hs ih => simpa [hasher_loop, CRH_constrain, boolean_constraint_count]

theorem bcc_selector_bits (b : Nat) :
    ∀ ds ls rs : List Nat,
      boolean_constraint_count (selector_constraints_bits b ds ls rs) = 0 := by
  intro ds
  induction ds with
  | nil => intro ls rs; rfl
  | cons x ds ih =>
    intro ls rs
    cases ls with
    | nil => rfl
    | cons y ls =>
      cases rs with
      | nil => rfl
      | cons z rs => simpa [selector_constraints_bits, boolean_constraint_count] using ih ls rs

theorem bcc_selector_loop (ss : List SelectorGadget) :
    boolean_constraint_count (selector_loop ss) = 0 := by
  induction ss with
  | nil => rfl
  | cons s ss ih =>
    simp [selector_loop, bcc_append, ih, selector_constraints, bcc_selector_bits]

theorem mem_digest_bitness {c : Constraint} {vars : List Nat} :
    c ∈ digest_bitness vars ↔ ∃ v ∈ vars, c = Constraint.boolean v := by
  simp only [digest_bitness, List.mem_map]
  constructor
  · rintro ⟨v, hv, rfl⟩; exact ⟨v, hv, rfl⟩
  · rintro ⟨v, hv, rfl⟩; exact ⟨v, hv, rfl⟩

theorem mem_bitness_loop_cases {c : Constraint} :
    ∀ {ls rs : List (List Nat)}, c ∈ bitness_loop ls rs →
      ∃ dl, (dl ∈ ls ∨ dl ∈ rs) ∧ c ∈ digest_bitness dl := by
  intro ls
  induction ls with
  | nil => intro rs h; cases rs <;> simp [bitness_loop] at h
  | cons l ls ih =>
    intro rs h
    cases rs with
    | nil => simp [bitness_loop] at h
    | cons r rs =>
      simp only [bitness_loop, List.mem_append] at h
      rcases h with (h | h) | h
      · exact ⟨l, Or.inl (List.mem_cons_self _ _), h⟩
      · exact ⟨r, Or.inr (List.mem_cons_self _ _), h⟩
      · obtain ⟨dl, hdl, hc⟩ := ih h
        refine ⟨dl, ?_, hc⟩
        rcases hdl with h' | h'
        · exact Or.inl (List.mem_cons_of_mem _ h')
        · exact Or.inr (List.mem_cons_of_mem _ h')

theorem mem_bitness_loop_of_left {c : Constraint} :
    ∀ (ls rs : List (List Nat)) (i : Nat), i < ls.length → i < rs.length →
      c ∈ digest_bitness (ls.getD i []) → c ∈ bitness_loop ls rs := by
  intro ls
  induction ls with
  | nil => intro rs i h1; simp at h1
  | cons l ls ih =>
    intro rs i h1 h2 hc
    cases rs with
    | nil => simp at h2
    | cons r rs =>
      cases i with
      | zero =>
        simp only [bitness_loop, List.mem_append]
        exact Or.inl (Or.inl hc)
      | succ j =>
        simp only [bitness_loop, List.mem_append]
        exact Or.inr (ih rs j (by simpa using h1) (by simpa using h2) hc)

theorem mem_bitness_loop_of_right {c : Constraint} :
    ∀ (ls rs : List (List Nat)) (i : Nat), i < ls.length → i < rs.length →
      c ∈ digest_bitness (rs.getD i []) → c ∈ bitness_loop ls rs := by
  intro ls
  induction ls with
  | nil => intro rs i h1; simp at h1
  | cons l ls ih =>
    intro rs i h1 h2 hc
    cases rs with
    | nil => simp at h2
    | cons r rs =>
      cases i with
      | zero =>
        simp only [bitness_loop, List.mem_append]
        exact Or.inl (Or.inr hc)
      | succ j =>
        simp only [bitness_loop, List.mem_append]
        exact Or.inr (ih rs j (by simpa using h1) (by simpa using h2) hc)

theorem mem_hasher_loop_cases {c : Constraint} :
    ∀ {hs : List HasherGadget}, c ∈ hasher_loop hs →
      ∃ h ∈ hs, c = Constraint.hash h.inp h.out false := by
  intro hs
  induction hs with
  | nil => intro h; simp [hasher_loop] at h
  | cons x hs ih =>
    intro h
    simp only [hasher_loop, CRH_constrain, List.cons_append, List.nil_append,
      List.mem_cons] at h
    rcases h with h | h
    · exact ⟨x, List.mem_cons_self _ _, h⟩
    · obtain ⟨y, hy, hc⟩ := ih h
      exact ⟨y, List.mem_cons_of_mem _ hy, hc⟩

theorem mem_selector_loop_cases {c : Constraint} :
    ∀ {ss : List SelectorGadget}, c ∈ selector_loop ss →
      ∃ s ∈ ss, c ∈ selector_constraints s := by
  intro ss
  induction ss with
  | nil => intro h; simp [selector_loop] at h
  | cons x ss ih =>
    intro h
    simp only [selector_loop, List.mem_append] at h
    rcases h with h | h
    · exact ⟨x, List.mem_cons_self _ _, h⟩
    · obtain ⟨y, hy, hc⟩ := ih h
      exact ⟨y, List.mem_cons_of_mem _ hy, hc⟩

theorem mem_selector_bits_cases {c : Constraint} {b : Nat} :
    ∀ {ds ls rs : List Nat}, c ∈ selector_constraints_bits b ds ls rs →
      ∃ k, k < ds.length ∧ k < ls.length ∧ k < rs.length ∧
        c = Constraint.select (ds.getD k 0) b (ls.getD k 0) (rs.getD k 0) := by
  intro ds
  induction ds with
  | nil => intro ls rs h; simp [selector_constraints_bits] at h
  | cons x ds ih =>
    intro ls rs h
    cases ls with
    | nil => simp [selector_constraints_bits] at h
    | cons y ls =>
      cases rs with
      | nil => simp [selector_constraints_bits] at h
      | cons z rs =>
        simp only [selector_constraints_bits, List.mem_cons] at h
        rcases h with h | h
        · exact ⟨0, by simp, by simp, by simp, by simpa using h⟩
        · obtain ⟨k, h1, h2, h3, hc⟩ := ih h
          exact ⟨k + 1, by simpa using h1, by simpa using h2, by simpa using h3,
            by simpa using hc⟩

theorem allocLR_fst_mem (L : Nat) :
    ∀ {n s x}, x ∈ (allocLR L n s).1 → ∃ i, i < n ∧ x = digestVars L (s + 2 * L * i) := by
  intro n
  induction n with
  | zero => intro s x h; simp [allocLR] at h
  | succ m ih =>
    intro s x h
    simp only [allocLR, List.mem_cons] at h
    rcases h with h | h
    · exact ⟨0, by omega, by simpa using h⟩
    · obtain ⟨i, hi, hx⟩ := ih h
      refine ⟨i + 1, by omega, ?_⟩
      rw [hx]
      congr 1
      ring

theorem allocLR_snd_mem (L : Nat) :
    ∀ {n s x}, x ∈ (allocLR L n s).2 →
      ∃ i, i < n ∧ x = digestVars L (s + 2 * L * i + L) := by
  intro n
  induction n with
  | zero => intro s x h; simp [allocLR] at h
  | succ m ih =>
    intro s x h
    simp only [allocLR, List.mem_cons] at h
    rcases h with h | h
    · exact ⟨0, by omega, by simpa using h⟩
    · obtain ⟨i, hi, hx⟩ := ih h
      refine ⟨i + 1, by omega, ?_⟩
      rw [hx]
      congr 1
      ring

theorem allocSeq_mem (L : Nat) :
    ∀ {n s x}, x ∈ allocSeq L n s → ∃ i, i < n ∧ x = digestVars L (s + L * i) := by
  intro n
  induction n with
  | zero => intro s x h; simp [allocSeq] at h
  | succ m ih =>
    intro s x h
    simp only [allocSeq, List.mem_cons] at h
    rcases h with h | h
    · exact ⟨0, by omega, by simpa using h⟩
    · obtain ⟨i, hi, hx⟩ := ih h
      refine ⟨i + 1, by omega, ?_⟩
      rw [hx]
      congr 1
      ring

theorem raw_hashers_length (L d : Nat) (addr leaf root : List Nat) (next : Nat) :
    (memory_load_gadget_raw L d addr leaf root next).hashers.length = d := by
  simp [memory_load_gadget_raw]

theorem raw_propagators_length (L d : Nat) (addr leaf root : List Nat) (next : Nat) :
    (memory_load_gadget_raw L d addr leaf root next).propagators.length = d := by
  simp [memory_load_gadget_raw]

/-! ## Claims -/

/-- C8: constructing the membership gadget with `depth = 0`, or with an
address-bit sequence whose length differs from `depth`, is detected
immediately at construction (the constructor's assertions fail, modelled as
`none`); for every `depth > 0` with matching address-bit count the
construction succeeds, and the constructed gadget keeps the given depth and
the given address-bit sequence unchanged (no truncation or padding). -/
theorem claim_C8_precondition (L d : Nat) (addr leaf root : List Nat) (next : Nat) :
    ((memory_load_gadget L d addr leaf root next).isSome = true ↔
      (0 < d ∧ addr.length = d)) ∧
    (∀ g, memory_load_gadget L d addr leaf root next = some g →
      g.tree_depth = d ∧ g.address_bits = addr) := by
  unfold memory_load_gadget
  by_cases h : 0 < d ∧ addr.length = d
  · rw [if_pos h]
    refine ⟨⟨fun _ => h, fun _ => rfl⟩, ?_⟩
    intro g hg
    cases hg
    exact ⟨rfl, rfl⟩
  · rw [if_neg h]
    exact ⟨⟨fun hh => by simp at hh, fun hh => absurd hh h⟩,
      fun g hg => by cases hg⟩

/-- Witness for C8 at a concrete input: depth 1 with one address bit
succeeds and keeps its data; depth 0 is rejected. -/
theorem claim_C8_witness :
    ((memory_load_gadget 1 1 [0] [1] [2] 3).isSome = true) ∧
    ((memory_load_gadget 1 0 [] [1] [2] 3).isSome = false) ∧
    (memory_load_gadget_raw 1 1 [0] [1] [2] 3).tree_depth = 1 ∧
    (memory_load_gadget_raw 1 1 [0] [1] [2] 3).address_bits = [0] := by
  refine ⟨(claim_C8_precondition 1 1 [0] [1] [2] 3).1.mpr (by decide), by decide, ?_, ?_⟩
  · exact ((claim_C8_precondition 1 1 [0] [1] [2] 3).2
      (memory_load_gadget_raw 1 1 [0] [1] [2] 3) (by decide)).1
  · exact ((claim_C8_precondition 1 1 [0] [1] [2] 3).2
      (memory_load_gadget_raw 1 1 [0] [1] [2] 3) (by decide)).2

/-- C4: for every `depth > 0` and level `i < depth`, the constructor wires
level `i` so that the hasher's output target is the root digest when `i = 0`
and `internal_output[i-1]` otherwise, the selector's claimed input is the
leaf digest when `i = depth-1` and `internal_output[i]` otherwise, and the
selector's direction bit is `address_bits[depth-1-i]`. -/
theorem claim_C4_wiring (L d : Nat) (addr leaf root : List Nat) (next : Nat)
    {i : Nat} (hi : i < d) :
    (((memory_load_gadget_raw L d addr leaf root next).hashers.getD i dfltHasher).out =
      if i = 0 then (memory_load_gadget_raw L d addr leaf root next).root
      else (memory_load_gadget_raw L d addr leaf root next).internal_output.getD (i - 1) []) ∧
    (((memory_load_gadget_raw L d addr leaf root next).propagators.getD i dfltSel).claimed =
      if i = d - 1 then (memory_load_gadget_raw L d addr leaf root next).leaf
      else (memory_load_gadget_raw L d addr leaf root next).internal_output.getD i []) ∧
    (((memory_load_gadget_raw L d addr leaf root next).propagators.getD i dfltSel).bit =
      (memory_load_gadget_raw L d addr leaf root next).address_bits.getD (d - 1 - i) 0) := by
  rw [raw_hashers_getD L d addr leaf root next hi,
    raw_propagators_getD L d addr leaf root next hi]
  refine ⟨rfl, ?_, rfl⟩
  by_cases h : i = d - 1
  · rw [if_pos h, if_neg (show ¬i < d - 1 by omega)]
    rfl
  · rw [if_neg h, if_pos (show i < d - 1 by omega)]
    rfl

/-- Witness for C4 at a concrete input (depth 2, both levels). -/
theorem claim_C4_witness :
    ((((memory_load_gadget_raw 1 2 [0, 1] [2] [3] 4).hashers.getD 0 dfltHasher).out =
        (memory_load_gadget_raw 1 2 [0, 1] [2] [3] 4).root) ∧
      (((memory_load_gadget_raw 1 2 [0, 1] [2] [3] 4).propagators.getD 0 dfltSel).claimed =
        (memory_load_gadget_raw 1 2 [0, 1] [2] [3] 4).internal_output.getD 0 []) ∧
      (((memory_load_gadget_raw 1 2 [0, 1] [2] [3] 4).propagators.getD 0 dfltSel).bit =
        (memory_load_gadget_raw 1 2 [0, 1] [2] [3] 4).address_bits.getD 1 0)) := by
  have h := claim_C4_wiring 1 2 [0, 1] [2] [3] 4 (show 0 < 2 by decide)
  exact ⟨h.1, h.2.1, h.2.2⟩

/-- C1: for every `depth > 0`, running `generate_r1cs_constraints` once on a
freshly constructed membership gadget emits exactly
`expected_constraints(depth)` constraints
(`depth` hasher fragments at their documented cost, plus `depth·L` selector
constraints, plus the slot-bitness constraints). -/
theorem claim_C1_constraint_count (hBase L d : Nat) (hd : 0 < d)
    (addr leaf root : List Nat) (next : Nat) (hleaf : leaf.length = L)
    (g : MemoryLoadGadget)
    (hg : memory_load_gadget L d addr leaf root next = some g) :
    num_constraints hBase L (generate_r1cs_constraints g) =
      expected_constraints hBase L d := by
  have hcond : 0 < d ∧ addr.length = d := by
    by_contra hc
    simp [memory_load_gadget, hc] at hg
  rw [memory_load_gadget, if_pos hcond] at hg
  cases hg
  unfold generate_r1cs_constraints
  rw [num_constraints_append, num_constraints_append]
  rw [num_bitness_loop hBase L _ _
      (by rw [raw_internal_left, raw_internal_right, allocLR_fst_length, allocLR_snd_length])
      (by
        rw [raw_internal_left]
        intro l hl
        obtain ⟨i, _, rfl⟩ := allocLR_fst_mem L hl
        exact length_digestVars L _)
      (by
        rw [raw_internal_right]
        intro r hr
        obtain ⟨i, _, rfl⟩ := allocLR_snd_mem L hr
        exact length_digestVars L _)]
  rw [num_hasher_loop, num_selector_loop hBase L _ ?hsel]
  case hsel =>
    intro s hs
    simp only [memory_load_gadget_raw, List.mem_map, List.mem_range] at hs
    obtain ⟨i, hi, rfl⟩ := hs
    unfold selector_constraints
    have hcl : (if i < d - 1 then (allocSeq L (d - 1) (next + 2 * L * d)).getD i []
        else leaf).length = L := by
      by_cases h : i < d - 1
      · rw [if_pos h, allocSeq_getD L (d - 1) _ i h, length_digestVars]
      · rw [if_neg h, hleaf]
    have hll : ((allocLR L d next).1.getD i []).length = L := by
      rw [allocLR_fst_getD L d _ i hi, length_digestVars]
    have hrl : ((allocLR L d next).2.getD i []).length = L := by
      rw [allocLR_snd_getD L d _ i hi, length_digestVars]
    rw [num_selector_bits hBase L _ _ _ _ (by rw [hcl, hll]) (by rw [hcl, hrl]), hcl]
  rw [raw_internal_left, allocLR_fst_length, raw_hashers_length, raw_propagators_length]
  unfold expected_constraints CRH_expected_constraints
  ring

/-- Witness for C1 at a concrete input (depth 1, digest length 1, hasher
fragment cost 5): the emitted count and the closed form agree. -/
theorem claim_C1_witness :
    0 < 1 ∧
    num_constraints 5 1
        (generate_r1cs_constraints (memory_load_gadget_raw 1 1 [0] [1] [2] 3)) =
      expected_constraints 5 1 1 := by
  refine ⟨by decide, claim_C1_constraint_count 5 1 1 (by decide) [0] [1] [2] 3
    (by decide) (memory_load_gadget_raw 1 1 [0] [1] [2] 3) (by decide)⟩

/-- C6: for every `depth > 0`, step 1 of `generate_r1cs_constraints` emits
bitness constraints for both the left-slot and the right-slot digest of
every level — the whole generated list contains exactly `2·depth·L` bitness
constraints (steps 2 and 3 contribute none), and the bitness constraint of
every bit of every slot digest is present. -/
theorem claim_C6_slot_bitness (L d : Nat) (hd : 0 < d)
    (addr leaf root : List Nat) (next : Nat) :
    boolean_constraint_count
        (generate_r1cs_constraints (memory_load_gadget_raw L d addr leaf root next)) =
      2 * d * L ∧
    (∀ i k, i < d → k < L →
      Constraint.boolean
          (((memory_load_gadget_raw L d addr leaf root next).internal_left.getD i []).getD k 0)
        ∈ generate_r1cs_constraints (memory_load_gadget_raw L d addr leaf root next) ∧
      Constraint.boolean
          (((memory_load_gadget_raw L d addr leaf root next).internal_right.getD i []).getD k 0)
        ∈ generate_r1cs_constraints (memory_load_gadget_raw L d addr leaf root next)) := by
  constructor
  · unfold generate_r1cs_constraints
    rw [bcc_append, bcc_append, bcc_hasher_loop, bcc_selector_loop,
      bcc_bitness_loop L _ _
        (by rw [raw_internal_left, raw_internal_right, allocLR_fst_length, allocLR_snd_length])
        (by
          rw [raw_internal_left]
          intro l hl
          obtain ⟨i, _, rfl⟩ := allocLR_fst_mem L hl
          exact length_digestVars L _)
        (by
          rw [raw_internal_right]
          intro r hr
          obtain ⟨i, _, rfl⟩ := allocLR_snd_mem L hr
          exact length_digestVars L _),
      raw_internal_left, allocLR_fst_length]
    ring
  · intro i k hi hk
    constructor
    · unfold generate_r1cs_constraints
      refine List.mem_append_left _ (List.mem_append_left _ ?_)
      apply mem_bitness_loop_of_left _ _ i
        (by rw [raw_internal_left, allocLR_fst_length]; exact hi)
        (by rw [raw_internal_right, allocLR_snd_length]; exact hi)
      rw [mem_digest_bitness]
      refine ⟨_, ?_, rfl⟩
      rw [raw_internal_left, allocLR_fst_getD L d _ i hi, digestVars_getD _ hk,
        mem_digestVars]
      omega
    · unfold generate_r1cs_constraints
      refine List.mem_append_left _ (List.mem_append_left _ ?_)
      apply mem_bitness_loop_of_right _ _ i
        (by rw [raw_internal_left, allocLR_fst_length]; exact hi)
        (by rw [raw_internal_right, allocLR_snd_length]; exact hi)
      rw [mem_digest_bitness]
      refine ⟨_, ?_, rfl⟩
      rw [raw_internal_right, allocLR_snd_getD L d _ i hi, digestVars_getD _ hk,
        mem_digestVars]
      omega

/-- Witness for C6 at a concrete input (depth 1, digest length 1). -/
theorem claim_C6_witness :
    0 < 1 ∧
    boolean_constraint_count
        (generate_r1cs_constraints (memory_load_gadget_raw 1 1 [0] [1] [2] 3)) =
      2 * 1 * 1 ∧
    Constraint.boolean 3
        ∈ generate_r1cs_constraints (memory_load_gadget_raw 1 1 [0] [1] [2] 3) ∧
    Constraint.boolean 4
        ∈ generate_r1cs_constraints (memory_load_gadget_raw 1 1 [0] [1] [2] 3) := by
  have h := claim_C6_slot_bitness 1 1 (by decide) [0] [1] [2] 3
  have h2 := h.2 0 0 (by decide) (by decide)
  exact ⟨by decide, h.1, h2.1, h2.2⟩

/-- C7: every hasher constraint fragment is emitted with the output
boolean-range flag `false`, and every bitness constraint in the generated
list targets a variable of a left-slot or right-slot digest — so no bitness
constraint on the root or on any internal-output digest ever comes from the
hasher side. -/
theorem claim_C7_hasher_flag (L d : Nat) (addr leaf root : List Nat) (next : Nat) :
    (∀ inp out flag, Constraint.hash inp out flag
        ∈ generate_r1cs_constraints (memory_load_gadget_raw L d addr leaf root next) →
      flag = false) ∧
    (∀ v, Constraint.boolean v
        ∈ generate_r1cs_constraints (memory_load_gadget_raw L d addr leaf root next) →
      ∃ dl, (dl ∈ (memory_load_gadget_raw L d addr leaf root next).internal_left ∨
        dl ∈ (memory_load_gadget_raw L d addr leaf root next).internal_right) ∧ v ∈ dl) := by
  constructor
  · intro inp out flag h
    unfold generate_r1cs_constraints at h
    rcases List.mem_append.mp h with h | h
    · rcases List.mem_append.mp h with h | h
      · obtain ⟨dl, _, hc⟩ := mem_bitness_loop_cases h
        rw [mem_digest_bitness] at hc
        obtain ⟨v, _, hv⟩ := hc
        cases hv
      · obtain ⟨x, _, hc⟩ := mem_hasher_loop_cases h
        simp only [Constraint.hash.injEq] at hc
        exact hc.2.2
    · obtain ⟨s, _, hc⟩ := mem_selector_loop_cases h
      obtain ⟨k, _, _, _, hc⟩ := mem_selector_bits_cases hc
      cases hc
  · intro v h
    unfold generate_r1cs_constraints at h
    rcases List.mem_append.mp h with h | h
    · rcases List.mem_append.mp h with h | h
      · obtain ⟨dl, hdl, hc⟩ := mem_bitness_loop_cases h
        rw [mem_digest_bitness] at hc
        obtain ⟨w, hw, hv⟩ := hc
        injection hv with hv
        exact ⟨dl, hdl, hv ▸ hw⟩
      · obtain ⟨x, _, hc⟩ := mem_hasher_loop_cases h
        cases hc
    · obtain ⟨s, _, hc⟩ := mem_selector_loop_cases h
      obtain ⟨k, _, _, _, hc⟩ := mem_selector_bits_cases hc
      cases hc

/-- Witness for C7 at a concrete input: the one hash fragment of the
depth-1 gadget indeed carries the flag `false`, and the bitness constraint
on variable 3 indeed sits in a slot digest. -/
theorem claim_C7_witness :
    (Constraint.hash [3, 4] [2] false
        ∈ generate_r1cs_constraints (memory_load_gadget_raw 1 1 [0] [1] [2] 3) ∧
      false = false) ∧
    ∃ dl, (dl ∈ (memory_load_gadget_raw 1 1 [0] [1] [2] 3).internal_left ∨
      dl ∈ (memory_load_gadget_raw 1 1 [0] [1] [2] 3).internal_right) ∧ 3 ∈ dl := by
  refine ⟨⟨by decide,
    (claim_C7_hasher_flag 1 1 [0] [1] [2] 3).1 [3, 4] [2] false (by decide)⟩,
    (claim_C7_hasher_flag 1 1 [0] [1] [2] 3).2 3 (by decide)⟩

/-! ## Witness-pass support lemmas -/

theorem getD_take {α : Type} (dflt : α) :
    ∀ (l : List α) (n i : Nat), i < n → (l.take n).getD i dflt = l.getD i dflt := by
  intro l
  induction l with
  | nil => intro n i h; simp
  | cons a l ih =>
    intro n i h
    cases n with
    | zero => omega
    | succ m =>
      cases i with
      | zero => rfl
      | succ j => exact ih m j (by omega)

theorem witness_loop_path_congr {F : Type} [Field F] [DecidableEq F]
    (g : MemoryLoadGadget) (hashFn : List Bool → List Bool)
    {path1 path2 : List PathNode} :
    ∀ (n : Nat) (val : Val F),
      (∀ i, i < n → path1.getD i dfltNode = path2.getD i dfltNode) →
      witness_loop g hashFn path1 n val = witness_loop g hashFn path2 n val := by
  intro n
  induction n with
  | zero => intro val _; rfl
  | succ m ih =>
    intro val h
    show witness_loop g hashFn path1 m (memory_load_witness_level g hashFn path1 m val)
      = witness_loop g hashFn path2 m (memory_load_witness_level g hashFn path2 m val)
    rw [show memory_load_witness_level g hashFn path1 m val
        = memory_load_witness_level g hashFn path2 m val by
      simp only [memory_load_witness_level]
      rw [h m (by omega)]]
    exact ih _ (fun i hi => h i (by omega))

/-- C10: `generate_r1cs_witness` reads the path only at the indices
`0 … tree_depth - 1` and performs no length check; under the unchecked
precondition `path.length ≥ tree_depth` every such access is in bounds, and
the result depends only on the first `tree_depth` path entries. -/
theorem claim_C10_path_bounds {F : Type} [Field F] [DecidableEq F]
    (g : MemoryLoadGadget) (hashFn : List Bool → List Bool)
    (leaf_digest root_digest : List Bool) (path : List PathNode) (val : Val F)
    (h : g.tree_depth ≤ path.length) :
    (∀ i, i < g.tree_depth → i < path.length) ∧
    generate_r1cs_witness g hashFn leaf_digest root_digest path val =
      generate_r1cs_witness g hashFn leaf_digest root_digest
        (path.take g.tree_depth) val := by
  refine ⟨fun i hi => by omega, ?_⟩
  unfold generate_r1cs_witness
  exact witness_loop_path_congr g hashFn g.tree_depth _
    (fun i hi => (getD_take dfltNode path g.tree_depth i hi).symm)

/-- Witness for C10 at a concrete input (depth 1, path of length 1). -/
theorem claim_C10_witness :
    (gTest 1 1).tree_depth ≤ 1 ∧
    generate_r1cs_witness (gTest 1 1) (fun _ => [true]) [false] [false]
        [PathNode.mk false [false]] (fun _ => (0 : ZMod 13)) =
      generate_r1cs_witness (gTest 1 1) (fun _ => [true]) [false] [false]
        (List.take (gTest 1 1).tree_depth [PathNode.mk false [false]])
        (fun _ => (0 : ZMod 13)) :=
  ⟨by decide, (claim_C10_path_bounds (gTest 1 1) (fun _ => [true]) [false] [false]
    [PathNode.mk false [false]] (fun _ => (0 : ZMod 13)) (by decide)).2⟩

theorem get_bits_append {F : Type} [Field F] [DecidableEq F]
    (val : Val F) (a b : List Nat) :
    get_bits val (a ++ b) = get_bits val a ++ get_bits val b := by
  simp [get_bits]

theorem fill_with_field_map_bool {F : Type} [Field F] :
    ∀ (vars : List Nat) (bits : List Bool) (val : Val F),
      fill_with_field vars (bits.map bool_to_F) val = fill_with_bits vars bits val := by
  intro vars
  induction vars with
  | nil => intro bits val; cases bits <;> rfl
  | cons v vs ih =>
    intro bits val
    cases bits with
    | nil => rfl
    | cons b bs =>
      simp only [List.map_cons, fill_with_field, fill_with_bits]
      exact ih bs _

theorem selector_witness_not_mem {F : Type} [Field F] [DecidableEq F]
    {s : SelectorGadget} {w : Nat} (val : Val F)
    (hl : w ∉ s.left) (hr : w ∉ s.right) :
    selector_witness s val w = val w := by
  unfold selector_witness
  by_cases h : val s.bit = 1
  · rw [if_pos h, fill_with_field_not_mem _ _ hr]
  · rw [if_neg h, fill_with_field_not_mem _ _ hl]

theorem hasher_witness_not_mem {F : Type} [Field F] [DecidableEq F]
    {h : HasherGadget} {w : Nat} (hashFn : List Bool → List Bool) (val : Val F)
    (hw : w ∉ h.out) :
    hasher_witness hashFn h val w = val w := by
  unfold hasher_witness
  exact fill_with_bits_not_mem _ _ hw

theorem merkle_root_from_length {L : Nat} {hashFn : List Bool → List Bool}
    {leaf : List Bool} (hlenH : ∀ bs, (hashFn bs).length = L)
    (hleaf : leaf.length = L) :
    ∀ p : List PathNode, (merkle_root_from hashFn leaf p).length = L := by
  intro p
  cases p with
  | nil => exact hleaf
  | cons node rest => exact hlenH _

theorem upTo_length {L : Nat} {hashFn : List Bool → List Bool}
    {leaf : List Bool} (hlenH : ∀ bs, (hashFn bs).length = L)
    (hleaf : leaf.length = L) (path : List PathNode) (j : Nat) :
    (upTo hashFn leaf path j).length = L :=
  merkle_root_from_length hlenH hleaf _

theorem upTo_step {hashFn : List Bool → List Bool} {leaf : List Bool}
    {path : List PathNode} {j : Nat} (hj : j < path.length) :
    upTo hashFn leaf path j =
      hashFn (chainBlock (path.getD j dfltNode) (upTo hashFn leaf path (j + 1))) := by
  unfold upTo
  rw [List.drop_eq_getElem_cons hj]
  show hashFn (chainBlock path[j] (merkle_root_from hashFn leaf (path.drop (j + 1)))) = _
  rw [List.getD_eq_getElem _ _ hj]

theorem upTo_full {hashFn : List Bool → List Bool} {leaf : List Bool}
    {path : List PathNode} {j : Nat} (hj : path.length ≤ j) :
    upTo hashFn leaf path j = leaf := by
  unfold upTo
  rw [List.drop_eq_nil_of_le hj]
  rfl

theorem claimed_if_eq (L d j : Nat) :
    (if j < d - 1 then digestVars L (blockStart L d (2 + 2 * d + j))
      else digestVars L (blockStart L d 0)) =
    digestVars L (blockStart L d (if j < d - 1 then 2 + 2 * d + j else 0)) := by
  by_cases h : j < d - 1 <;> simp [h]

theorem gTest_level_frame {F : Type} [Field F] [DecidableEq F]
    (L d : Nat) (hashFn : List Bool → List Bool) (path : List PathNode)
    (j w : Nat) (hj : j < d) (val : Val F)
    (h1 : w ≠ d - 1 - j)
    (h2 : w ∉ digestVars L (blockStart L d (2 + 2 * j)))
    (h3 : w ∉ digestVars L (blockStart L d (3 + 2 * j)))
    (h4 : w ∉ digestVars L (blockStart L d (outTargetT d j))) :
    memory_load_witness_level (gTest L d) hashFn path j val w = val w := by
  simp only [memory_load_witness_level, gTest_tree_depth]
  rw [gTest_hashers_getD L d hj, gTest_propagators_getD L d hj,
    gTest_left_getD L d hj, gTest_right_getD L d hj,
    gTest_addr_getD L d (show d - 1 - j < d by omega)]
  simp only [selector_witness, hasher_witness]
  rw [claimed_if_eq L d j]
  rw [fill_with_bits_not_mem _ _ h4, ite_apply,
    fill_with_field_not_mem _ _ h3, fill_with_field_not_mem _ _ h2, ite_self,
    ite_apply,
    fill_with_bits_not_mem _ _ h2, setVar_ne _ _ h1,
    fill_with_bits_not_mem _ _ h3, setVar_ne _ _ h1,
    ite_self]

theorem gTest_level_step {F : Type} [Field F] [DecidableEq F]
    (L d : Nat) (hashFn : List Bool → List Bool)
    (leaf_bits : List Bool) (path : List PathNode) {j : Nat} (hj : j < d)
    (hpath : path.length = d)
    (hlenH : ∀ bs, (hashFn bs).length = L)
    (hleaf : leaf_bits.length = L)
    (haux : (path.getD j dfltNode).aux_digest.length = L)
    (val : Val F)
    (hclaim : ∀ k, k < L →
      val (blockStart L d (if j < d - 1 then 2 + 2 * d + j else 0) + k) =
        bool_to_F ((upTo hashFn leaf_bits path (j + 1)).getD k false)) :
    (memory_load_witness_level (gTest L d) hashFn path j val (d - 1 - j) =
      bool_to_F (path.getD j dfltNode).computed_is_right) ∧
    (∀ k, k < L →
      memory_load_witness_level (gTest L d) hashFn path j val
          (blockStart L d (2 + 2 * j) + k) =
        bool_to_F ((if (path.getD j dfltNode).computed_is_right then
          (path.getD j dfltNode).aux_digest
          else upTo hashFn leaf_bits path (j + 1)).getD k false)) ∧
    (∀ k, k < L →
      memory_load_witness_level (gTest L d) hashFn path j val
          (blockStart L d (3 + 2 * j) + k) =
        bool_to_F ((if (path.getD j dfltNode).computed_is_right then
          upTo hashFn leaf_bits path (j + 1)
          else (path.getD j dfltNode).aux_digest).getD k false)) ∧
    (∀ k, k < L →
      memory_load_witness_level (gTest L d) hashFn path j val
          (blockStart L d (outTargetT d j) + k) =
        bool_to_F ((upTo hashFn leaf_bits path j).getD k false)) := by
  have hup : (upTo hashFn leaf_bits path (j + 1)).length = L :=
    upTo_length hlenH hleaf path (j + 1)
  have hupj : (upTo hashFn leaf_bits path j).length = L :=
    upTo_length hlenH hleaf path j
  have htc : (if j < d - 1 then 2 + 2 * d + j else 0) ≠ 2 + 2 * j := by
    by_cases h : j < d - 1
    · rw [if_pos h]; omega
    · rw [if_neg h]; omega
  have htc3 : (if j < d - 1 then 2 + 2 * d + j else 0) ≠ 3 + 2 * j := by
    by_cases h : j < d - 1
    · rw [if_pos h]; omega
    · rw [if_neg h]; omega
  have houtT2 : 2 + 2 * j ≠ outTargetT d j := by
    unfold outTargetT
    by_cases h : j = 0
    · rw [if_pos h]; omega
    · rw [if_neg h]; omega
  have houtT3 : 3 + 2 * j ≠ outTargetT d j := by
    unfold outTargetT
    by_cases h : j = 0
    · rw [if_pos h]; omega
    · rw [if_neg h]; omega
  simp only [memory_load_witness_level, gTest_tree_depth]
  rw [gTest_hashers_getD L d hj, gTest_propagators_getD L d hj,
    gTest_left_getD L d hj, gTest_right_getD L d hj,
    gTest_addr_getD L d (show d - 1 - j < d by omega)]
  simp only [selector_witness, hasher_witness]
  rw [claimed_if_eq L d j]
  cases hb : (path.getD j dfltNode).computed_is_right
  · -- the computed digest is on the left: bit 0, sibling fills the right slot
    simp only [Bool.false_eq_true, if_false]
    have hv1_addr : fill_with_bits (digestVars L (blockStart L d (3 + 2 * j)))
        (path.getD j dfltNode).aux_digest (setVar (d - 1 - j) 0 val) (d - 1 - j) = 0 := by
      rw [fill_with_bits_not_mem _ _ (addr_not_mem_block (by omega)), setVar_same]
    rw [if_neg (show ¬fill_with_bits (digestVars L (blockStart L d (3 + 2 * j)))
        (path.getD j dfltNode).aux_digest (setVar (d - 1 - j) 0 val) (d - 1 - j) = 1 by
      rw [hv1_addr]; exact zero_ne_one)]
    have hv1_claim : ∀ k, k < L →
        fill_with_bits (digestVars L (blockStart L d (3 + 2 * j)))
          (path.getD j dfltNode).aux_digest (setVar (d - 1 - j) 0 val)
          (blockStart L d (if j < d - 1 then 2 + 2 * d + j else 0) + k) =
        bool_to_F ((upTo hashFn leaf_bits path (j + 1)).getD k false) := by
      intro k hk
      rw [fill_with_bits_not_mem _ _ (blockStart_not_mem htc3 hk),
        setVar_ne _ _ (block_ne_addr (by omega)), hclaim k hk]
    rw [digestVars_map_val _ (upTo hashFn leaf_bits path (j + 1)) _ hv1_claim hup,
      fill_with_field_map_bool]
    have hv2_left : ∀ k, k < L →
        fill_with_bits (digestVars L (blockStart L d (2 + 2 * j)))
          (upTo hashFn leaf_bits path (j + 1))
          (fill_with_bits (digestVars L (blockStart L d (3 + 2 * j)))
            (path.getD j dfltNode).aux_digest (setVar (d - 1 - j) 0 val))
          (blockStart L d (2 + 2 * j) + k) =
        bool_to_F ((upTo hashFn leaf_bits path (j + 1)).getD k false) := by
      intro k hk
      exact fill_with_bits_digest_get _ _ hk hup
    have hv2_right : ∀ k, k < L →
        fill_with_bits (digestVars L (blockStart L d (2 + 2 * j)))
          (upTo hashFn leaf_bits path (j + 1))
          (fill_with_bits (digestVars L (blockStart L d (3 + 2 * j)))
            (path.getD j dfltNode).aux_digest (setVar (d - 1 - j) 0 val))
          (blockStart L d (3 + 2 * j) + k) =
        bool_to_F ((path.getD j dfltNode).aux_digest.getD k false) := by
      intro k hk
      rw [fill_with_bits_not_mem _ _ (blockStart_not_mem (by omega) hk)]
      exact fill_with_bits_digest_get _ _ hk haux
    have hbits : get_bits
        (fill_with_bits (digestVars L (blockStart L d (2 + 2 * j)))
          (upTo hashFn leaf_bits path (j + 1))
          (fill_with_bits (digestVars L (blockStart L d (3 + 2 * j)))
            (path.getD j dfltNode).aux_digest (setVar (d - 1 - j) 0 val)))
        (digestVars L (blockStart L d (2 + 2 * j))
          ++ digestVars L (blockStart L d (3 + 2 * j))) =
        upTo hashFn leaf_bits path (j + 1) ++ (path.getD j dfltNode).aux_digest := by
      rw [get_bits_append,
        get_bits_digest _ (upTo hashFn leaf_bits path (j + 1)) _ hv2_left hup,
        get_bits_digest _ (path.getD j dfltNode).aux_digest _ hv2_right haux]
    have hchain : hashFn (upTo hashFn leaf_bits path (j + 1)
        ++ (path.getD j dfltNode).aux_digest) = upTo hashFn leaf_bits path j := by
      rw [upTo_step (show j < path.length by omega)]
      unfold chainBlock
      rw [hb, if_neg Bool.false_ne_true]
    rw [hbits, hchain]
    refine ⟨?_, ?_, ?_, ?_⟩
    · rw [fill_with_bits_not_mem _ _ (addr_not_mem_block (by omega)),
        fill_with_bits_not_mem _ _ (addr_not_mem_block (by omega)), hv1_addr]
      rfl
    · intro k hk
      rw [fill_with_bits_not_mem _ _ (blockStart_not_mem houtT2 hk)]
      exact hv2_left k hk
    · intro k hk
      rw [fill_with_bits_not_mem _ _ (blockStart_not_mem houtT3 hk)]
      exact hv2_right k hk
    · intro k hk
      exact fill_with_bits_digest_get _ _ hk hupj
  · -- the computed digest is on the right: bit 1, sibling fills the left slot
    simp only [eq_self_iff_true, if_true]
    have hv1_addr : fill_with_bits (digestVars L (blockStart L d (2 + 2 * j)))
        (path.getD j dfltNode).aux_digest (setVar (d - 1 - j) 1 val) (d - 1 - j) = 1 := by
      rw [fill_with_bits_not_mem _ _ (addr_not_mem_block (by omega)), setVar_same]
    rw [if_pos hv1_addr]
    have hv1_claim : ∀ k, k < L →
        fill_with_bits (digestVars L (blockStart L d (2 + 2 * j)))
          (path.getD j dfltNode).aux_digest (setVar (d - 1 - j) 1 val)
          (blockStart L d (if j < d - 1 then 2 + 2 * d + j else 0) + k) =
        bool_to_F ((upTo hashFn leaf_bits path (j + 1)).getD k false) := by
      intro k hk
      rw [fill_with_bits_not_mem _ _ (blockStart_not_mem htc hk),
        setVar_ne _ _ (block_ne_addr (by omega)), hclaim k hk]
    rw [digestVars_map_val _ (upTo hashFn leaf_bits path (j + 1)) _ hv1_claim hup,
      fill_with_field_map_bool]
    have hv2_right : ∀ k, k < L →
        fill_with_bits (digestVars L (blockStart L d (3 + 2 * j)))
          (upTo hashFn leaf_bits path (j + 1))
          (fill_with_bits (digestVars L (blockStart L d (2 + 2 * j)))
            (path.getD j dfltNode).aux_digest (setVar (d - 1 - j) 1 val))
          (blockStart L d (3 + 2 * j) + k) =
        bool_to_F ((upTo hashFn leaf_bits path (j + 1)).getD k false) := by
      intro k hk
      exact fill_with_bits_digest_get _ _ hk hup
    have hv2_left : ∀ k, k < L →
        fill_with_bits (digestVars L (blockStart L d (3 + 2 * j)))
          (upTo hashFn leaf_bits path (j + 1))
          (fill_with_bits (digestVars L (blockStart L d (2 + 2 * j)))
            (path.getD j dfltNode).aux_digest (setVar (d - 1 - j) 1 val))
          (blockStart L d (2 + 2 * j) + k) =
        bool_to_F ((path.getD j dfltNode).aux_digest.getD k false) := by
      intro k hk
      rw [fill_with_bits_not_mem _ _ (blockStart_not_mem (by omega) hk)]
      exact fill_with_bits_digest_get _ _ hk haux
    have hbits : get_bits
        (fill_with_bits (digestVars L (blockStart L d (3 + 2 * j)))
          (upTo hashFn leaf_bits path (j + 1))
          (fill_with_bits (digestVars L (blockStart L d (2 + 2 * j)))
            (path.getD j dfltNode).aux_digest (setVar (d - 1 - j) 1 val)))
        (digestVars L (blockStart L d (2 + 2 * j))
          ++ digestVars L (blockStart L d (3 + 2 * j))) =
        (path.getD j dfltNode).aux_digest ++ upTo hashFn leaf_bits path (j + 1) := by
      rw [get_bits_append,
        get_bits_digest _ (path.getD j dfltNode).aux_digest _ hv2_left haux,
        get_bits_digest _ (upTo hashFn leaf_bits path (j + 1)) _ hv2_right hup]
    have hchain : hashFn ((path.getD j dfltNode).aux_digest
        ++ upTo hashFn leaf_bits path (j + 1)) = upTo hashFn leaf_bits path j := by
      rw [upTo_step (show j < path.length by omega)]
      unfold chainBlock
      rw [hb, if_pos rfl]
    rw [hbits, hchain]
    refine ⟨?_, ?_, ?_, ?_⟩
    · rw [fill_with_bits_not_mem _ _ (addr_not_mem_block (by omega)),
        fill_with_bits_not_mem _ _ (addr_not_mem_block (by omega)), hv1_addr]
      rfl
    · intro k hk
      rw [fill_with_bits_not_mem _ _ (blockStart_not_mem houtT2 hk)]
      exact hv2_left k hk
    · intro k hk
      rw [fill_with_bits_not_mem _ _ (blockStart_not_mem houtT3 hk)]
      exact hv2_right k hk
    · intro k hk
      exact fill_with_bits_digest_get _ _ hk hupj

theorem outTargetT_ne_slot (d m i : Nat) (hi : i < d) :
    2 + 2 * i ≠ outTargetT d m ∧ 3 + 2 * i ≠ outTargetT d m := by
  unfold outTargetT
  by_cases h : m = 0
  · rw [if_pos h]
    exact ⟨by omega, by omega⟩
  · rw [if_neg h]
    exact ⟨by omega, by omega⟩

theorem outTargetT_ne_zero (d m : Nat) : (0 : Nat) ≠ outTargetT d m := by
  unfold outTargetT
  by_cases h : m = 0
  · rw [if_pos h]
    omega
  · rw [if_neg h]
    omega

theorem outTargetT_inj (d m i : Nat) (hne : i ≠ m) :
    outTargetT d i ≠ outTargetT d m := by
  unfold outTargetT
  by_cases h1 : i = 0
  · rw [if_pos h1, if_neg (show m ≠ 0 by omega)]
    omega
  · rw [if_neg h1]
    by_cases h2 : m = 0
    · rw [if_pos h2]
      omega
    · rw [if_neg h2]
      omega

theorem witness_loop_inv {F : Type} [Field F] [DecidableEq F]
    (L d : Nat) (hashFn : List Bool → List Bool)
    (leaf_bits : List Bool) (path : List PathNode)
    (hpath : path.length = d)
    (hlenH : ∀ bs, (hashFn bs).length = L)
    (hleaf : leaf_bits.length = L)
    (haux : ∀ n ∈ path, n.aux_digest.length = L) :
    ∀ j, j ≤ d → ∀ val : Val F,
      loopInv F L d hashFn leaf_bits path j val →
      loopInv F L d hashFn leaf_bits path 0
        (witness_loop (gTest L d) hashFn path j val) := by
  intro j
  induction j with
  | zero => intro _ val h; exact h
  | succ m ih =>
    intro hj val hInv
    show loopInv F L d hashFn leaf_bits path 0
      (witness_loop (gTest L d) hashFn path m
        (memory_load_witness_level (gTest L d) hashFn path m val))
    apply ih (by omega)
    obtain ⟨hA, hB, hC, hD⟩ := hInv
    have hm : m < d := by omega
    have hauxm : (path.getD m dfltNode).aux_digest.length = L := by
      apply haux
      have hlt : m < path.length := by omega
      rw [List.getD_eq_getElem _ _ hlt]
      exact List.getElem_mem hlt
    have hclaim : ∀ k, k < L →
        val (blockStart L d (if m < d - 1 then 2 + 2 * d + m else 0) + k) =
          bool_to_F ((upTo hashFn leaf_bits path (m + 1)).getD k false) := by
      intro k hk
      by_cases h : m < d - 1
      · rw [if_pos h]
        have hfact := hD (m + 1) k (by omega) (by omega) hk
        rw [show outTargetT d (m + 1) = 2 + 2 * d + m from by
          unfold outTargetT
          rw [if_neg (Nat.succ_ne_zero m)]
          omega] at hfact
        exact hfact
      · rw [if_neg h]
        rw [upTo_full (show path.length ≤ m + 1 by omega)]
        exact hA k hk
    have hstep := gTest_level_step L d hashFn leaf_bits path hm hpath hlenH hleaf
      hauxm val hclaim
    refine ⟨?_, ?_, ?_, ?_⟩
    · intro k hk
      rw [gTest_level_frame L d hashFn path m (blockStart L d 0 + k) hm val
        (block_ne_addr (by omega))
        (blockStart_not_mem (by omega) hk)
        (blockStart_not_mem (by omega) hk)
        (blockStart_not_mem (outTargetT_ne_zero d m) hk)]
      exact hA k hk
    · intro i hge hi
      by_cases he : i = m
      · subst he
        exact hstep.1
      · rw [gTest_level_frame L d hashFn path m (d - 1 - i) hm val
          (by omega)
          (addr_not_mem_block (by omega))
          (addr_not_mem_block (by omega))
          (addr_not_mem_block (by omega))]
        exact hB i (by omega) hi
    · intro i k hge hi hk
      by_cases he : i = m
      · subst he
        exact ⟨hstep.2.1 k hk, hstep.2.2.1 k hk⟩
      · have hs := outTargetT_ne_slot d m i hi
        constructor
        · rw [gTest_level_frame L d hashFn path m (blockStart L d (2 + 2 * i) + k) hm val
            (block_ne_addr (by omega))
            (blockStart_not_mem (by omega) hk)
            (blockStart_not_mem (by omega) hk)
            (blockStart_not_mem hs.1 hk)]
          exact (hC i k (by omega) hi hk).1
        · rw [gTest_level_frame L d hashFn path m (blockStart L d (3 + 2 * i) + k) hm val
            (block_ne_addr (by omega))
            (blockStart_not_mem (by omega) hk)
            (blockStart_not_mem (by omega) hk)
            (blockStart_not_mem hs.2 hk)]
          exact (hC i k (by omega) hi hk).2
    · intro i k hge hi hk
      by_cases he : i = m
      · subst he
        exact hstep.2.2.2 k hk
      · have hs := outTargetT_ne_slot d i m hm
        rw [gTest_level_frame L d hashFn path m (blockStart L d (outTargetT d i) + k) hm val
          (block_ne_addr (by omega))
          (blockStart_not_mem (Ne.symm hs.1) hk)
          (blockStart_not_mem (Ne.symm hs.2) hk)
          (blockStart_not_mem (outTargetT_inj d m i he) hk)]
        exact hD i k (by omega) hi hk

theorem generate_r1cs_witness_inv {F : Type} [Field F] [DecidableEq F]
    (L d : Nat) (hashFn : List Bool → List Bool)
    (leaf_bits root_digest : List Bool) (path : List PathNode)
    (hpath : path.length = d)
    (hlenH : ∀ bs, (hashFn bs).length = L)
    (hleaf : leaf_bits.length = L)
    (haux : ∀ n ∈ path, n.aux_digest.length = L)
    (val : Val F) :
    loopInv F L d hashFn leaf_bits path 0
      (generate_r1cs_witness (gTest L d) hashFn leaf_bits root_digest path val) := by
  show loopInv F L d hashFn leaf_bits path 0
    (witness_loop (gTest L d) hashFn path d
      (fill_with_bits (gTest L d).leaf leaf_bits val))
  apply witness_loop_inv L d hashFn leaf_bits path hpath hlenH hleaf haux d
    (Nat.le_refl d)
  refine ⟨?_, ?_, ?_, ?_⟩
  · intro k hk
    rw [show (gTest L d).leaf = digestVars L (blockStart L d 0) from gTest_leaf L d]
    exact fill_with_bits_digest_get _ _ hk hleaf
  · intro i hge hi
    omega
  · intro i k hge hi hk
    omega
  · intro i k hge hi hk
    omega

theorem gTest_level_addr {F : Type} [Field F] [DecidableEq F]
    (L d : Nat) (hashFn : List Bool → List Bool) (path : List PathNode)
    {j : Nat} (hj : j < d) (val : Val F) :
    memory_load_witness_level (gTest L d) hashFn path j val (d - 1 - j) =
      bool_to_F (path.getD j dfltNode).computed_is_right := by
  simp only [memory_load_witness_level, gTest_tree_depth]
  rw [gTest_hashers_getD L d hj, gTest_propagators_getD L d hj,
    gTest_left_getD L d hj, gTest_right_getD L d hj,
    gTest_addr_getD L d (show d - 1 - j < d by omega)]
  simp only [selector_witness, hasher_witness]
  rw [claimed_if_eq L d j]
  rw [fill_with_bits_not_mem _ _ (addr_not_mem_block (by omega)), ite_apply,
    fill_with_field_not_mem _ _ (addr_not_mem_block (by omega)),
    fill_with_field_not_mem _ _ (addr_not_mem_block (by omega)), ite_self,
    ite_apply,
    fill_with_bits_not_mem _ _ (addr_not_mem_block (by omega)), setVar_same,
    fill_with_bits_not_mem _ _ (addr_not_mem_block (by omega)), setVar_same]
  rfl

theorem witness_loop_frame_low {F : Type} [Field F] [DecidableEq F]
    (L d : Nat) (hashFn : List Bool → List Bool) (path : List PathNode) :
    ∀ j, j ≤ d → ∀ (val : Val F) (w : Nat), w < d →
      (∀ i, i < j → w ≠ d - 1 - i) →
      witness_loop (gTest L d) hashFn path j val w = val w := by
  intro j
  induction j with
  | zero => intro _ val w _ _; rfl
  | succ m ih =>
    intro hj val w hw hne
    show witness_loop (gTest L d) hashFn path m
      (memory_load_witness_level (gTest L d) hashFn path m val) w = val w
    rw [ih (by omega) _ w hw (fun i hi => hne i (by omega)),
      gTest_level_frame L d hashFn path m w (by omega) val (hne m (by omega))
        (addr_not_mem_block hw) (addr_not_mem_block hw) (addr_not_mem_block hw)]

theorem witness_loop_addr {F : Type} [Field F] [DecidableEq F]
    (L d : Nat) (hashFn : List Bool → List Bool) (path : List PathNode) :
    ∀ j, j ≤ d → ∀ (val : Val F) (i : Nat), i < j →
      witness_loop (gTest L d) hashFn path j val (d - 1 - i) =
        bool_to_F (path.getD i dfltNode).computed_is_right := by
  intro j
  induction j with
  | zero => intro _ val i hi; omega
  | succ m ih =>
    intro hj val i hi
    show witness_loop (gTest L d) hashFn path m
      (memory_load_witness_level (gTest L d) hashFn path m val) (d - 1 - i) = _
    by_cases he : i = m
    · subst he
      rw [witness_loop_frame_low L d hashFn path i (by omega) _ (d - 1 - i)
        (by omega) (fun i' hi' => by omega)]
      exact gTest_level_addr L d hashFn path (by omega) val
    · exact ih (by omega) _ i (by omega)

/-- C9: after `generate_r1cs_witness` returns, every address-bit variable
holds the field value 0 or 1 exactly — it holds the direction flag of the
corresponding path level — for every path of length `tree_depth`, regardless
of the contents of the supplied leaf, root, and sibling digests and of the
initial valuation. -/
theorem claim_C9_address_bits {F : Type} [Field F] [DecidableEq F]
    (L d : Nat) (hashFn : List Bool → List Bool)
    (leaf_digest root_digest : List Bool) (path : List PathNode)
    (hpath : path.length = d) (val : Val F) {jj : Nat} (hj : jj < d) :
    generate_r1cs_witness (gTest L d) hashFn leaf_digest root_digest path val
        ((gTest L d).address_bits.getD jj 0) = 0 ∨
    generate_r1cs_witness (gTest L d) hashFn leaf_digest root_digest path val
        ((gTest L d).address_bits.getD jj 0) = 1 := by
  rw [gTest_addr_getD L d hj]
  have hfact := witness_loop_addr L d hashFn path d (Nat.le_refl d)
    (fill_with_bits (gTest L d).leaf leaf_digest val) (d - 1 - jj) (by omega)
  rw [show d - 1 - (d - 1 - jj) = jj by omega] at hfact
  show witness_loop (gTest L d) hashFn path d
      (fill_with_bits (gTest L d).leaf leaf_digest val) jj = 0 ∨
    witness_loop (gTest L d) hashFn path d
      (fill_with_bits (gTest L d).leaf leaf_digest val) jj = 1
  rw [hfact]
  cases (path.getD (d - 1 - jj) dfltNode).computed_is_right
  · left
    rfl
  · right
    rfl

/-- Witness for C9 at a concrete input (depth 1, junk digest contents). -/
theorem claim_C9_witness :
    [PathNode.mk true [true, false]].length = 1 ∧ 0 < 1 ∧
    (generate_r1cs_witness (gTest 1 1) (fun _ => [true]) [false] [true]
        [PathNode.mk true [true, false]] (fun _ => (7 : ZMod 13))
        ((gTest 1 1).address_bits.getD 0 0) = 0 ∨
      generate_r1cs_witness (gTest 1 1) (fun _ => [true]) [false] [true]
        [PathNode.mk true [true, false]] (fun _ => (7 : ZMod 13))
        ((gTest 1 1).address_bits.getD 0 0) = 1) :=
  ⟨rfl, by decide, claim_C9_address_bits 1 1 (fun _ => [true]) [false] [true]
    [PathNode.mk true [true, false]] rfl (fun _ => (7 : ZMod 13)) (by decide)⟩

theorem gTest_level_sibling {F : Type} [Field F] [DecidableEq F]
    (L d : Nat) (hashFn : List Bool → List Bool) (path : List PathNode)
    {j : Nat} (hj : j < d)
    (haux : (path.getD j dfltNode).aux_digest.length = L) (val : Val F) :
    ((path.getD j dfltNode).computed_is_right = true →
      ∀ k, k < L →
        memory_load_witness_level (gTest L d) hashFn path j val
            (blockStart L d (2 + 2 * j) + k) =
          bool_to_F ((path.getD j dfltNode).aux_digest.getD k false)) ∧
    ((path.getD j dfltNode).computed_is_right = false →
      ∀ k, k < L →
        memory_load_witness_level (gTest L d) hashFn path j val
            (blockStart L d (3 + 2 * j) + k) =
          bool_to_F ((path.getD j dfltNode).aux_digest.getD k false)) := by
  have hs2 := (outTargetT_ne_slot d j j hj).1
  have hs3 := (outTargetT_ne_slot d j j hj).2
  simp only [memory_load_witness_level, gTest_tree_depth]
  rw [gTest_hashers_getD L d hj, gTest_propagators_getD L d hj,
    gTest_left_getD L d hj, gTest_right_getD L d hj,
    gTest_addr_getD L d (show d - 1 - j < d by omega)]
  simp only [selector_witness, hasher_witness]
  rw [claimed_if_eq L d j]
  constructor
  · intro hb k hk
    rw [hb]
    simp only [eq_self_iff_true, if_true]
    rw [fill_with_bits_not_mem _ _ (blockStart_not_mem hs2 hk)]
    rw [if_pos (show fill_with_bits (digestVars L (blockStart L d (2 + 2 * j)))
        (path.getD j dfltNode).aux_digest (setVar (d - 1 - j) 1 val) (d - 1 - j) = 1 by
      rw [fill_with_bits_not_mem _ _ (addr_not_mem_block (by omega)), setVar_same])]
    rw [fill_with_field_not_mem _ _ (blockStart_not_mem (by omega) hk)]
    exact fill_with_bits_digest_get _ _ hk haux
  · intro hb k hk
    rw [hb]
    simp only [Bool.false_eq_true, if_false]
    rw [fill_with_bits_not_mem _ _ (blockStart_not_mem hs3 hk)]
    rw [if_neg (show ¬fill_with_bits (digestVars L (blockStart L d (3 + 2 * j)))
        (path.getD j dfltNode).aux_digest (setVar (d - 1 - j) 0 val) (d - 1 - j) = 1 by
      rw [fill_with_bits_not_mem _ _ (addr_not_mem_block (by omega)), setVar_same]
      exact zero_ne_one)]
    rw [fill_with_field_not_mem _ _ (blockStart_not_mem (by omega) hk)]
    exact fill_with_bits_digest_get _ _ hk haux

/-- C5: during `generate_r1cs_witness`, the processing of level `i` sets
`address_bits[depth-1-i]` to 1 and assigns the sibling digest into the
level-`i` left-slot digest when `path[i].computed_is_right` holds, and
otherwise sets the bit to 0 and assigns the sibling digest into the
level-`i` right-slot digest. -/
theorem claim_C5_direction_bit {F : Type} [Field F] [DecidableEq F]
    (L d : Nat) (hashFn : List Bool → List Bool) (path : List PathNode)
    {i : Nat} (hi : i < d)
    (haux : (path.getD i dfltNode).aux_digest.length = L) (val : Val F) :
    ((path.getD i dfltNode).computed_is_right = true →
      memory_load_witness_level (gTest L d) hashFn path i val
          ((gTest L d).address_bits.getD (d - 1 - i) 0) = 1 ∧
      (∀ k, k < L →
        memory_load_witness_level (gTest L d) hashFn path i val
            (((gTest L d).internal_left.getD i []).getD k 0) =
          bool_to_F ((path.getD i dfltNode).aux_digest.getD k false))) ∧
    ((path.getD i dfltNode).computed_is_right = false →
      memory_load_witness_level (gTest L d) hashFn path i val
          ((gTest L d).address_bits.getD (d - 1 - i) 0) = 0 ∧
      (∀ k, k < L →
        memory_load_witness_level (gTest L d) hashFn path i val
            (((gTest L d).internal_right.getD i []).getD k 0) =
          bool_to_F ((path.getD i dfltNode).aux_digest.getD k false))) := by
  have haddr := gTest_level_addr L d hashFn path hi val
  have hsib := gTest_level_sibling L d hashFn path hi haux val
  constructor
  · intro hb
    constructor
    · rw [gTest_addr_getD L d (show d - 1 - i < d by omega), haddr, hb]
      rfl
    · intro k hk
      rw [gTest_left_getD L d hi, digestVars_getD _ hk]
      exact hsib.1 hb k hk
  · intro hb
    constructor
    · rw [gTest_addr_getD L d (show d - 1 - i < d by omega), haddr, hb]
      rfl
    · intro k hk
      rw [gTest_right_getD L d hi, digestVars_getD _ hk]
      exact hsib.2 hb k hk

/-- Witness for C5 at a concrete input (depth 1, digest length 1, sibling on
the right). -/
theorem claim_C5_witness :
    ((PathNode.mk true [true]).computed_is_right = true) ∧
    memory_load_witness_level (gTest 1 1) (fun _ => [true])
        [PathNode.mk true [true]] 0 (fun _ => (0 : ZMod 13))
        ((gTest 1 1).address_bits.getD 0 0) = 1 ∧
    memory_load_witness_level (gTest 1 1) (fun _ => [true])
        [PathNode.mk true [true]] 0 (fun _ => (0 : ZMod 13))
        (((gTest 1 1).internal_left.getD 0 []).getD 0 0) =
      bool_to_F (([true] : List Bool).getD 0 false) := by
  have h := (@claim_C5_direction_bit (ZMod 13) _ _ 1 1 (fun _ => [true])
    [PathNode.mk true [true]] 0 (by decide) rfl (fun _ => (0 : ZMod 13))).1 rfl
  exact ⟨rfl, h.1, h.2 0 (by decide)⟩

/-- C3, counterexample to the claim as stated: on a depth-1 tree over
`ZMod 13`, with every variable initially 0, running `generate_r1cs_witness`
changes the value of the root digest's variable — the level-0 hasher witness
step (`memory_load_gadget.tcc` line 113) writes the computed hash bits into
its output digest, which at level 0 is the root (line 53). -/
theorem claim_C3_counterexample :
    generate_r1cs_witness (gTest 1 1) (fun _ => [true]) [false] [true]
        [PathNode.mk false [false]] (fun _ => (0 : ZMod 13))
        ((gTest 1 1).root.getD 0 0) ≠
      (fun _ => (0 : ZMod 13)) ((gTest 1 1).root.getD 0 0) := by
  decide

/-- C3 as amended: during `generate_r1cs_witness`, at level `i = 0` the
hasher witness step assigns the recomputed hash bits into the root digest's
variables (the root is recomputed, not left unchanged); the caller-supplied
`root_digest` argument is never read by the witness pass — the supplied root
is only reconciled with the circuit by the caller filling the root digest
afterwards and checking satisfaction. -/
theorem claim_C3_root_recomputed {F : Type} [Field F] [DecidableEq F]
    (L d : Nat) (hd : 0 < d) (hashFn : List Bool → List Bool)
    (leaf_digest root_digest : List Bool) (path : List PathNode)
    (hpath : path.length = d)
    (hlenH : ∀ bs, (hashFn bs).length = L)
    (hleaf : leaf_digest.length = L)
    (haux : ∀ n ∈ path, n.aux_digest.length = L)
    (val : Val F) {k : Nat} (hk : k < L) :
    generate_r1cs_witness (gTest L d) hashFn leaf_digest root_digest path val
        ((gTest L d).root.getD k 0) =
      bool_to_F ((merkle_root_from hashFn leaf_digest path).getD k false) ∧
    (∀ rb rb' : List Bool,
      generate_r1cs_witness (gTest L d) hashFn leaf_digest rb path val =
        generate_r1cs_witness (gTest L d) hashFn leaf_digest rb' path val) := by
  refine ⟨?_, fun rb rb' => rfl⟩
  have hInv := generate_r1cs_witness_inv L d hashFn leaf_digest root_digest path
    hpath hlenH hleaf haux val
  obtain ⟨hA, hB, hC, hD⟩ := hInv
  have hfact := hD 0 k (Nat.zero_le 0) hd hk
  rw [show outTargetT d 0 = 1 from rfl] at hfact
  rw [gTest_root L d, digestVars_getD _ hk, hfact]
  rw [show upTo hashFn leaf_digest path 0 = merkle_root_from hashFn leaf_digest path
    from by unfold upTo; rw [List.drop_zero]]

/-- Witness for C3's amended statement at a concrete input: depth 1, the
root variable ends up holding the recomputed chain digest. -/
theorem claim_C3_amended_witness :
    0 < 1 ∧
    generate_r1cs_witness (gTest 1 1) (fun _ => [true]) [false] [true]
        [PathNode.mk false [false]] (fun _ => (0 : ZMod 13))
        ((gTest 1 1).root.getD 0 0) =
      bool_to_F ((merkle_root_from (fun _ => [true]) [false]
        [PathNode.mk false [false]]).getD 0 false) :=
  ⟨by decide, (@claim_C3_root_recomputed (ZMod 13) _ _ 1 1 (by decide)
    (fun _ => [true]) [false] [true] [PathNode.mk false [false]] rfl
    (fun _ => rfl) rfl (by decide) (fun _ => (0 : ZMod 13)) 0 (by decide)).1⟩

theorem mem_getD {α : Type} {l : List α} {x : α} (dflt : α) (h : x ∈ l) :
    ∃ i, i < l.length ∧ l.getD i dflt = x := by
  obtain ⟨i, hi, he⟩ := List.mem_iff_getElem.mp h
  exact ⟨i, hi, by rw [List.getD_eq_getElem _ _ hi, he]⟩

theorem test_address_bits_getD {d i : Nat} {path : List PathNode}
    (hpath : path.length = d) (hi : i < d) :
    (test_address_bits path).getD (d - 1 - i) false =
      (path.getD i dfltNode).computed_is_right := by
  unfold test_address_bits
  have h1 : d - 1 - i < ((path.map PathNode.computed_is_right).reverse).length := by
    rw [List.length_reverse, List.length_map, hpath]
    omega
  rw [List.getD_eq_getElem _ _ h1, List.getElem_reverse]
  have h2 : i < path.length := by omega
  rw [List.getD_eq_getElem _ _ h2]
  have h3 : (path.map PathNode.computed_is_right).length - 1 - (d - 1 - i) = i := by
    rw [List.length_map, hpath]
    omega
  simp only [h3, List.getElem_map]

theorem test_address_bits_length {d : Nat} {path : List PathNode}
    (hpath : path.length = d) : (test_address_bits path).length = d := by
  unfold test_address_bits
  rw [List.length_reverse, List.length_map, hpath]

theorem bool_sat {F : Type} [Field F] [DecidableEq F] (b : Bool) :
    (decide ((bool_to_F b : F) = 0) || decide ((bool_to_F b : F) = 1)) = true := by
  cases b
  · simp [bool_to_F]
  · simp [bool_to_F]

theorem all_bool_digest {F : Type} [Field F] [DecidableEq F]
    {L s : Nat} (val : Val F)
    (h : ∀ k, k < L → ∃ b : Bool, val (s + k) = bool_to_F b) :
    ((digestVars L s).all fun v => decide (val v = 0) || decide (val v = 1)) = true := by
  rw [List.all_eq_true]
  intro v hv
  rw [mem_digestVars] at hv
  obtain ⟨b, hb⟩ := h (v - s) (by omega)
  rw [show s + (v - s) = v from by omega] at hb
  rw [hb]
  exact bool_sat b

theorem block_not_mem_addrVars {L d t k : Nat} :
    blockStart L d t + k ∉ digestVars d 0 := by
  apply not_mem_digestVars_of_ge
  unfold blockStart
  rw [Nat.zero_add]
  exact (Nat.le_add_right d (L * t)).trans (Nat.le_add_right _ k)

theorem gTest_hashers_length (L d : Nat) : (gTest L d).hashers.length = d :=
  raw_hashers_length L d _ _ _ _

theorem gTest_propagators_length (L d : Nat) : (gTest L d).propagators.length = d :=
  raw_propagators_length L d _ _ _ _

/-- C2: completeness of the membership circuit. For every depth > 0 and
every leaf, sibling digests and direction flags of the right lengths, with
the root honestly derived by chaining the hash from the leaf up (as the
self-test derives it), running `generate_r1cs_witness` and then assigning
the address bits, the leaf and the root (as the self-test does) satisfies
every constraint emitted by `generate_r1cs_constraints`. -/
theorem claim_C2_completeness {F : Type} [Field F] [DecidableEq F]
    (L d : Nat) (hd : 0 < d) (hashFn : List Bool → List Bool)
    (leaf_bits : List Bool) (path : List PathNode)
    (hpath : path.length = d)
    (hlenH : ∀ bs, (hashFn bs).length = L)
    (hleaf : leaf_bits.length = L)
    (haux : ∀ n ∈ path, n.aux_digest.length = L)
    (val : Val F) :
    is_satisfied hashFn
      (fill_with_bits (gTest L d).root (merkle_root_from hashFn leaf_bits path)
        (fill_with_bits (gTest L d).leaf leaf_bits
          (fill_with_bits (gTest L d).address_bits (test_address_bits path)
            (generate_r1cs_witness (gTest L d) hashFn leaf_bits
              (merkle_root_from hashFn leaf_bits path) path val))))
      (generate_r1cs_constraints (gTest L d)) = true := by
  have hroot_len : (merkle_root_from hashFn leaf_bits path).length = L :=
    merkle_root_from_length hlenH hleaf path
  have haddr_len : (test_address_bits path).length = d := test_address_bits_length hpath
  obtain ⟨hA, hB, hC, hD⟩ := generate_r1cs_witness_inv L d hashFn leaf_bits
    (merkle_root_from hashFn leaf_bits path) path hpath hlenH hleaf haux val
  set w0 := generate_r1cs_witness (gTest L d) hashFn leaf_bits
    (merkle_root_from hashFn leaf_bits path) path val with hw0
  set w1 := fill_with_bits (gTest L d).address_bits (test_address_bits path) w0 with hw1
  set w2 := fill_with_bits (gTest L d).leaf leaf_bits w1 with hw2
  set w3 := fill_with_bits (gTest L d).root (merkle_root_from hashFn leaf_bits path) w2
    with hw3
  have hFaddr : ∀ i, i < d →
      w3 (d - 1 - i) = bool_to_F (path.getD i dfltNode).computed_is_right := by
    intro i hi
    rw [hw3, gTest_root L d,
      fill_with_bits_not_mem _ _ (addr_not_mem_block (by omega)),
      hw2, gTest_leaf L d,
      fill_with_bits_not_mem _ _ (addr_not_mem_block (by omega)),
      hw1, gTest_address_bits L d,
      show d - 1 - i = 0 + (d - 1 - i) from by omega,
      fill_with_bits_digest_get 0 _ (show d - 1 - i < d by omega) haddr_len,
      test_address_bits_getD hpath hi]
  have hFleaf : ∀ k, k < L →
      w3 (blockStart L d 0 + k) = bool_to_F (leaf_bits.getD k false) := by
    intro k hk
    rw [hw3, gTest_root L d,
      fill_with_bits_not_mem _ _ (blockStart_not_mem (by omega) hk),
      hw2, gTest_leaf L d, fill_with_bits_digest_get _ _ hk hleaf]
  have hFroot : ∀ k, k < L →
      w3 (blockStart L d 1 + k) =
        bool_to_F ((merkle_root_from hashFn leaf_bits path).getD k false) := by
    intro k hk
    rw [hw3, gTest_root L d, fill_with_bits_digest_get _ _ hk hroot_len]
  have hkeep : ∀ t, t ≠ 0 → t ≠ 1 → ∀ k, k < L →
      w3 (blockStart L d t + k) = w0 (blockStart L d t + k) := by
    intro t ht0 ht1 k hk
    rw [hw3, gTest_root L d,
      fill_with_bits_not_mem _ _ (blockStart_not_mem ht1 hk),
      hw2, gTest_leaf L d,
      fill_with_bits_not_mem _ _ (blockStart_not_mem ht0 hk),
      hw1, gTest_address_bits L d,
      fill_with_bits_not_mem _ _ block_not_mem_addrVars]
  have hFslotL : ∀ i k, i < d → k < L →
      w3 (blockStart L d (2 + 2 * i) + k) =
        bool_to_F ((if (path.getD i dfltNode).computed_is_right then
          (path.getD i dfltNode).aux_digest
          else upTo hashFn leaf_bits path (i + 1)).getD k false) := by
    intro i k hi hk
    rw [hkeep (2 + 2 * i) (by omega) (by omega) k hk]
    exact (hC i k (Nat.zero_le i) hi hk).1
  have hFslotR : ∀ i k, i < d → k < L →
      w3 (blockStart L d (3 + 2 * i) + k) =
        bool_to_F ((if (path.getD i dfltNode).computed_is_right then
          upTo hashFn leaf_bits path (i + 1)
          else (path.getD i dfltNode).aux_digest).getD k false) := by
    intro i k hi hk
    rw [hkeep (3 + 2 * i) (by omega) (by omega) k hk]
    exact (hC i k (Nat.zero_le i) hi hk).2
  have hFout : ∀ i k, i < d → k < L →
      w3 (blockStart L d (outTargetT d i) + k) =
        bool_to_F ((upTo hashFn leaf_bits path i).getD k false) := by
    intro i k hi hk
    by_cases h0 : i = 0
    · subst h0
      rw [show outTargetT d 0 = 1 from rfl, hFroot k hk,
        show upTo hashFn leaf_bits path 0 = merkle_root_from hashFn leaf_bits path
          from by unfold upTo; rw [List.drop_zero]]
    · rw [hkeep (outTargetT d i) (Ne.symm (outTargetT_ne_zero d i))
        (show outTargetT d i ≠ 1 from by
          unfold outTargetT
          rw [if_neg h0]
          omega) k hk]
      exact hD i k (Nat.zero_le i) hi hk
  have hFclaim : ∀ i k, i < d → k < L →
      w3 (blockStart L d (if i < d - 1 then 2 + 2 * d + i else 0) + k) =
        bool_to_F ((upTo hashFn leaf_bits path (i + 1)).getD k false) := by
    intro i k hi hk
    by_cases h : i < d - 1
    · rw [if_pos h]
      have hfact := hFout (i + 1) k (by omega) hk
      rw [show outTargetT d (i + 1) = 2 + 2 * d + i from by
        unfold outTargetT
        rw [if_neg (Nat.succ_ne_zero i)]
        omega] at hfact
      exact hfact
    · rw [if_neg h, upTo_full (show path.length ≤ i + 1 by omega)]
      exact hFleaf k hk
  unfold is_satisfied
  rw [List.all_eq_true]
  intro c hc
  unfold generate_r1cs_constraints at hc
  rcases List.mem_append.mp hc with hc | hc
  · rcases List.mem_append.mp hc with hc | hc
    · -- slot-bitness constraints
      obtain ⟨dl, hdl, hcd⟩ := mem_bitness_loop_cases hc
      rw [mem_digest_bitness] at hcd
      obtain ⟨v, hv, rfl⟩ := hcd
      rcases hdl with hdl | hdl
      · obtain ⟨i, hi, rfl⟩ := allocLR_fst_mem L
          (show dl ∈ (allocLR L d (d + 2 * L)).1 from hdl)
        rw [show d + 2 * L + 2 * L * i = blockStart L d (2 + 2 * i) from by
          unfold blockStart; ring] at hv
        rw [mem_digestVars] at hv
        simp only [constraint_sat]
        rw [show v = blockStart L d (2 + 2 * i) + (v - blockStart L d (2 + 2 * i))
          from by omega]
        rw [hFslotL i _ hi (by omega)]
        exact bool_sat _
      · obtain ⟨i, hi, rfl⟩ := allocLR_snd_mem L
          (show dl ∈ (allocLR L d (d + 2 * L)).2 from hdl)
        rw [show d + 2 * L + 2 * L * i + L = blockStart L d (3 + 2 * i) from by
          unfold blockStart; ring] at hv
        rw [mem_digestVars] at hv
        simp only [constraint_sat]
        rw [show v = blockStart L d (3 + 2 * i) + (v - blockStart L d (3 + 2 * i))
          from by omega]
        rw [hFslotR i _ hi (by omega)]
        exact bool_sat _
    · -- hasher fragments
      obtain ⟨h, hmem, rfl⟩ := mem_hasher_loop_cases hc
      obtain ⟨i, hi, hgetD⟩ := mem_getD dfltHasher hmem
      rw [gTest_hashers_length L d] at hi
      rw [gTest_hashers_getD L d hi] at hgetD
      cases hgetD
      simp only [constraint_sat]
      rw [Bool.and_eq_true, Bool.and_eq_true]
      have hgb : get_bits w3 (digestVars L (blockStart L d (2 + 2 * i))
          ++ digestVars L (blockStart L d (3 + 2 * i))) =
          chainBlock (path.getD i dfltNode) (upTo hashFn leaf_bits path (i + 1)) := by
        rw [get_bits_append]
        unfold chainBlock
        cases hbit : (path.getD i dfltNode).computed_is_right
        · rw [get_bits_digest _ (upTo hashFn leaf_bits path (i + 1)) _
            (fun k hk => by
              have hfact := hFslotL i k hi hk
              rw [hbit] at hfact
              simpa using hfact) (upTo_length hlenH hleaf path (i + 1))]
          rw [get_bits_digest _ (path.getD i dfltNode).aux_digest _
            (fun k hk => by
              have hfact := hFslotR i k hi hk
              rw [hbit] at hfact
              simpa using hfact)
            (haux _ (by
              rw [List.getD_eq_getElem _ _ (show i < path.length by omega)]
              exact List.getElem_mem _))]
          rw [if_neg Bool.false_ne_true]
        · rw [get_bits_digest _ (path.getD i dfltNode).aux_digest _
            (fun k hk => by
              have hfact := hFslotL i k hi hk
              rw [hbit] at hfact
              simpa using hfact)
            (haux _ (by
              rw [List.getD_eq_getElem _ _ (show i < path.length by omega)]
              exact List.getElem_mem _))]
          rw [get_bits_digest _ (upTo hashFn leaf_bits path (i + 1)) _
            (fun k hk => by
              have hfact := hFslotR i k hi hk
              rw [hbit] at hfact
              simpa using hfact) (upTo_length hlenH hleaf path (i + 1))]
          rw [if_pos rfl]
      refine ⟨⟨?_, ?_⟩, by rfl⟩
      · rw [List.all_append, Bool.and_eq_true]
        exact ⟨all_bool_digest _ (fun k hk => ⟨_, hFslotL i k hi hk⟩),
          all_bool_digest _ (fun k hk => ⟨_, hFslotR i k hi hk⟩)⟩
      · rw [decide_eq_true_eq, hgb,
          show hashFn (chainBlock (path.getD i dfltNode)
              (upTo hashFn leaf_bits path (i + 1))) = upTo hashFn leaf_bits path i
            from (upTo_step (show i < path.length by omega)).symm]
        exact digestVars_map_val _ (upTo hashFn leaf_bits path i) _
          (fun k hk => hFout i k hi hk) (upTo_length hlenH hleaf path i)
  · -- selector constraints
    obtain ⟨s, hmem, hcs⟩ := mem_selector_loop_cases hc
    obtain ⟨i, hi, hgetD⟩ := mem_getD dfltSel hmem
    rw [gTest_propagators_length L d] at hi
    rw [gTest_propagators_getD L d hi] at hgetD
    cases hgetD
    unfold selector_constraints at hcs
    obtain ⟨k, hk1, hk2, hk3, rfl⟩ := mem_selector_bits_cases hcs
    have hkL : k < L := by
      have := hk2
      simp only [length_digestVars] at this
      exact this
    have hcl : ((if i < d - 1 then digestVars L (blockStart L d (2 + 2 * d + i))
        else digestVars L (blockStart L d 0)) : List Nat).getD k 0 =
        blockStart L d (if i < d - 1 then 2 + 2 * d + i else 0) + k := by
      rw [claimed_if_eq L d i, digestVars_getD _ hkL]
    simp only [constraint_sat]
    rw [decide_eq_true_eq]
    show w3 (((if i < d - 1 then digestVars L (blockStart L d (2 + 2 * d + i))
        else digestVars L (blockStart L d 0)) : List Nat).getD k 0) = _
    rw [hcl, digestVars_getD (blockStart L d (2 + 2 * i)) hkL,
      digestVars_getD (blockStart L d (3 + 2 * i)) hkL,
      hFclaim i k hi hkL, hFaddr i hi,
      hFslotL i k hi hkL, hFslotR i k hi hkL]
    cases hbit : (path.getD i dfltNode).computed_is_right
    · simp only [Bool.false_eq_true, if_false]
      rw [show bool_to_F false = (0 : F) from rfl]
      ring
    · simp only [eq_self_iff_true, if_true]
      rw [show bool_to_F true = (1 : F) from rfl]
      ring

/-- Witness for C2 at a concrete input: depth 1, digest length 1, a
single-output hash, a concrete leaf and path; the satisfaction check holds. -/
theorem claim_C2_witness :
    0 < 1 ∧
    is_satisfied (fun bs => [bs.all id])
      (fill_with_bits (gTest 1 1).root
        (merkle_root_from (fun bs => [bs.all id]) [true] [PathNode.mk false [true]])
        (fill_with_bits (gTest 1 1).leaf [true]
          (fill_with_bits (gTest 1 1).address_bits
            (test_address_bits [PathNode.mk false [true]])
            (generate_r1cs_witness (gTest 1 1) (fun bs => [bs.all id]) [true]
              (merkle_root_from (fun bs => [bs.all id]) [true]
                [PathNode.mk false [true]])
              [PathNode.mk false [true]] (fun _ => (5 : ZMod 13))))))
      (generate_r1cs_constraints (gTest 1 1)) = true :=
  ⟨by decide, @claim_C2_completeness (ZMod 13) _ _ 1 1 (by decide)
    (fun bs => [bs.all id]) [true] [PathNode.mk false [true]] rfl
    (fun _ => rfl) rfl (by decide) (fun _ => (5 : ZMod 13))⟩

end MemoryLoad
